import Mathlib

/-!
# Verification of `scripts/regenerate_chunks.py`

A shallow embedding of the chunk-regeneration script.  Python strings are
modelled as `List Char` (`Str`); Python dicts holding chunk data are modelled
as the structure `Chunk`; the per-appendix JSON records are the structures
`SectionRec` / `Appendix`; the directory of input files is a `List InputFile`
(file name paired with parsed record).  All functions below are direct
translations of the Python functions of the same name.
-/

set_option maxRecDepth 8000

/-- A Python `str`, modelled as its list of code points. -/
abbrev Str := List Char

/-- Python whitespace test used by `str.strip()` and the regex class `\s`
(restricted to the common ASCII whitespace characters). -/
def isWS (c : Char) : Bool := c.isWhitespace

/-- Python `str.strip()`: remove leading and trailing whitespace. -/
def strip (s : Str) : Str := ((s.dropWhile isWS).reverse.dropWhile isWS).reverse

/-- Python `str.lower()` (ASCII case folding). -/
def lower (s : Str) : Str := s.map Char.toLower

/-- Python `re.search(pat, s)` for a literal pattern `pat`: does `pat` occur
as a contiguous substring of `s`? -/
def containsSub (s pat : Str) : Bool := decide (pat <:+: s)

/-- The two-newline separator `"\n\n"` used when joining text pieces. -/
def nlnl : Str := ['\n', '\n']

-- Configuration constants from the script.

def TARGET_CHUNK_SIZE : Nat := 1200

def MIN_CHUNK_SIZE : Nat := 200

def MAX_CHUNK_SIZE : Nat := 2000

def OVERLAP_SIZE : Nat := 200

/-- `PLACEHOLDER_PATTERNS` from the script.  Each regex is a literal string
once escapes are resolved (`\[` is a literal bracket), so the patterns are
modelled as the literal strings they match. -/
def PLACEHOLDER_PATTERNS : List Str :=
  [ "Missing from the official CREST CPSA syllabus".toList,
    "[placeholder]".toList,
    "[to be added]".toList,
    "[section missing]".toList ]

/-- `is_placeholder_content(text)`: the lowered, stripped text is searched for
each pattern case-insensitively (so: for the lowered pattern), and the content
is a placeholder when some pattern occurs and the stripped text is shorter
than 100 characters. -/
def is_placeholder_content (text : Str) : Bool :=
  let text_lower := strip (lower text)
  PLACEHOLDER_PATTERNS.any fun pattern =>
    containsSub text_lower (lower pattern) && decide ((strip text).length < 100)

/-!
## The paragraph-splitting regex

`split_into_paragraphs` splits on `re.split(r'\n\s*\n|\n(?=[A-Z][a-z]+ [A-Z]|\d+\.|\â€¢)', text)`.
The first alternative consumes a newline, a greedy run of whitespace, and a
final newline.  The second consumes a single newline when followed (lookahead,
not consumed) by a heading-like start: `[A-Z][a-z]+ [A-Z]`, or `\d+\.`, or the
literal three characters `â€¢` (a mojibake bullet).
-/

/-- Given the text following a matched `\n`, if the alternative `\n\s*\n` can
complete here, return the number of further characters it consumes (the greedy
`\s*` run up to and including the last newline inside the whitespace prefix). -/
def alt1Len (t : Str) : Option Nat :=
  let w := t.takeWhile isWS
  match w.reverse.findIdx? (fun c => c == '\n') with
  | none => none
  | some j => some (w.length - j)

/-- The lookahead `(?=[A-Z][a-z]+ [A-Z]|\d+\.|\â€¢)` applied to the text
following a `\n`.  Because a space is not a lowercase letter and a dot is not
a digit, the greedy `[a-z]+` (resp. `\d+`) must match the full maximal run. -/
def headingLookahead (t : Str) : Bool :=
  (match t with
   | c :: rest =>
     c.isUpper &&
       (let lo := rest.takeWhile Char.isLower
        decide (1 ≤ lo.length) &&
          (match rest.drop lo.length with
           | ' ' :: d :: _ => d.isUpper
           | _ => false))
   | [] => false)
  || (let ds := t.takeWhile Char.isDigit
      decide (1 ≤ ds.length) &&
        (match t.drop ds.length with
         | '.' :: _ => true
         | _ => false))
  || (match t with
      | 'â' :: '€' :: '¢' :: _ => true
      | _ => false)

/-- The scanner realising `re.split` for the pattern above: `acc` holds the
(reversed) characters of the piece currently being accumulated. -/
def paraSplit : Str → Str → List Str
  | [], acc => [acc.reverse]
  | c :: rest, acc =>
    if c = '\n' then
      match alt1Len rest with
      | some k => acc.reverse :: paraSplit (rest.drop k) []
      | none =>
        if headingLookahead rest then
          acc.reverse :: paraSplit rest []
        else
          paraSplit rest (c :: acc)
    else paraSplit rest (c :: acc)
termination_by s _ => s.length
decreasing_by
  all_goals simp only [List.length_drop, List.length_cons]
  all_goals omega

/-- `split_into_paragraphs(text)`: regex split, then keep the stripped pieces
that are non-empty (`[p.strip() for p in paragraphs if p.strip()]`). -/
def split_into_paragraphs (text : Str) : List Str :=
  ((paraSplit text []).map strip).filter (fun p => !p.isEmpty)

/-- One chunk record as built by `create_chunks_from_section` (the `id` key is
only added at the very end of `main` and is modelled separately). -/
structure Chunk where
  text : Str
  section_id : Str
  section_title : Str
  appendix : Str
  appendix_title : Str
deriving Repr, DecidableEq, Inhabited

/-- The greedy paragraph-accumulation loop of `create_chunks_from_section`
(lines 73–87).  Returns the list of flushed chunks and the final buffer. -/
def splitLoop (sid stitle appendix appendix_title : Str) :
    List Str → Str → List Chunk × Str
  | [], current => ([], current)
  | para :: rest, current =>
    if MAX_CHUNK_SIZE < current.length + para.length + 2 ∧
        MIN_CHUNK_SIZE ≤ current.length then
      let overlap : Str :=
        if OVERLAP_SIZE < current.length then
          current.drop (current.length - OVERLAP_SIZE)
        else []
      let current' := if overlap.isEmpty then para else overlap ++ nlnl ++ para
      let r := splitLoop sid stitle appendix appendix_title rest current'
      (⟨strip current, sid, stitle, appendix, appendix_title⟩ :: r.1, r.2)
    else
      let current' := if current.isEmpty then para else current ++ nlnl ++ para
      splitLoop sid stitle appendix appendix_title rest current'

/-- `chunks[-1]['text'] += t`: extend the text of the last chunk in place. -/
def appendToLast : List Chunk → Str → List Chunk
  | [], _ => []
  | [c], t => [{ c with text := c.text ++ t }]
  | c :: c' :: cs, t => c :: appendToLast (c' :: cs) t

/-- `create_chunks_from_section(section_content, …)`. -/
def create_chunks_from_section (section_content sid stitle appendix appendix_title : Str) :
    List Chunk :=
  if is_placeholder_content section_content then []
  else if section_content.length ≤ MAX_CHUNK_SIZE then
    if MIN_CHUNK_SIZE ≤ section_content.length then
      [⟨section_content, sid, stitle, appendix, appendix_title⟩]
    else []
  else
    let paragraphs := split_into_paragraphs section_content
    let r := splitLoop sid stitle appendix appendix_title paragraphs []
    if ¬(strip r.2).isEmpty ∧ MIN_CHUNK_SIZE ≤ (strip r.2).length then
      r.1 ++ [⟨strip r.2, sid, stitle, appendix, appendix_title⟩]
    else if ¬(strip r.2).isEmpty ∧ ¬r.1.isEmpty then
      appendToLast r.1 (nlnl ++ strip r.2)
    else r.1

/-- One section record of an appendix JSON file. -/
structure SectionRec where
  id : Str
  title : Str
  content : Str
deriving Repr, DecidableEq, Inhabited

/-- One appendix JSON record. -/
structure Appendix where
  letter : Str
  title : Str
  sections : List SectionRec
deriving Repr, DecidableEq, Inhabited

/-- `process_appendix`: chunk every section of an appendix in order. -/
def process_appendix (a : Appendix) : List Chunk :=
  a.sections.flatMap fun s =>
    create_chunks_from_section s.content s.id s.title a.letter a.title

/-- The merging loop of `merge_small_chunks`, written without the `merged`
accumulator (output chunks are produced in the same order the Python code
appends them).  `curr` is the pending chunk being grown. -/
def mergeLoop : Option Chunk → List Chunk → List Chunk
  | none, [] => []
  | some c, [] => if MIN_CHUNK_SIZE ≤ c.text.length then [c] else []
  | none, chunk :: rest => mergeLoop (some chunk) rest
  | some c, chunk :: rest =>
    if c.section_id = chunk.section_id ∧
        c.text.length + chunk.text.length + 2 ≤ MAX_CHUNK_SIZE then
      mergeLoop (some { c with text := c.text ++ nlnl ++ chunk.text }) rest
    else if MIN_CHUNK_SIZE ≤ c.text.length then
      c :: mergeLoop (some chunk) rest
    else
      mergeLoop (some chunk) rest

/-- `merge_small_chunks(chunks)`. -/
def merge_small_chunks (chunks : List Chunk) : List Chunk :=
  if chunks.isEmpty then chunks else mergeLoop none chunks

/-- Decimal digit character. -/
def digitChar : Nat → Char
  | 0 => '0' | 1 => '1' | 2 => '2' | 3 => '3' | 4 => '4'
  | 5 => '5' | 6 => '6' | 7 => '7' | 8 => '8' | _ => '9'

/-- Decimal rendering of a natural number, as Python's `str(i)`. -/
def natDigits (n : Nat) : Str :=
  if _h : n < 10 then [digitChar n]
  else natDigits (n / 10) ++ [digitChar (n % 10)]
decreasing_by exact Nat.div_lt_self (by omega) (by omega)

/-- The identifier `f'chunk_{i}'` assigned in `main`. -/
def chunkId (i : Nat) : Str := "chunk_".toList ++ natDigits i

/-- An output chunk record after `main` has added the `id` key. -/
structure OutChunk where
  id : Str
  text : Str
  section_id : Str
  section_title : Str
  appendix : Str
  appendix_title : Str
deriving Repr, DecidableEq, Inhabited

/-- `for i, chunk in enumerate(all_chunks): chunk['id'] = f'chunk_{i}'`. -/
def addIdsFrom (i : Nat) : List Chunk → List OutChunk
  | [] => []
  | c :: cs =>
    ⟨chunkId i, c.text, c.section_id, c.section_title, c.appendix, c.appendix_title⟩ ::
      addIdsFrom (i + 1) cs

/-- Assign the sequential identifiers, starting at 0. -/
def addIds (l : List Chunk) : List OutChunk := addIdsFrom 0 l

/-- Lexicographic comparison of strings by code point, as Python's `<=` on
the (equal-directory) file paths being sorted. -/
def strLe : Str → Str → Bool
  | [], _ => true
  | _ :: _, [] => false
  | a :: s, b :: t => if a = b then strLe s t else decide (a < b)

/-- Strict lexicographic comparison. -/
def strLt : Str → Str → Bool
  | [], [] => false
  | [], _ :: _ => true
  | _ :: _, [] => false
  | a :: s, b :: t => if a = b then strLt s t else decide (a < b)

/-- One input file: its file name (used only for sorting) and its parsed
appendix record. -/
structure InputFile where
  name : Str
  data : Appendix
deriving Repr, DecidableEq, Inhabited

/-- `sorted(appendices_dir.glob('*.json'))`: files in lexicographic name
order (stable merge sort, matching Python's stable `sorted`). -/
def sortFiles (files : List InputFile) : List InputFile :=
  files.mergeSort fun f g => strLe f.name g.name

/-- The whole data transformation of `main`: process each appendix file in
sorted order, concatenate, merge small chunks, then assign identifiers. -/
def pipeline (files : List InputFile) : List OutChunk :=
  addIds (merge_small_chunks ((sortFiles files).flatMap fun f => process_appendix f.data))

/-!
## A heap-level model of `merge_small_chunks`

The Python chunks are dicts: mutable heap cells referenced from lists.  To
state the frame property "`merge_small_chunks` never mutates its input
records" we re-express the function over an explicit heap: a list of cells
addressed by index, where `chunk.copy()` allocates a fresh cell and
`current['text'] = …` writes to the cell held in `current`.
-/

/-- The heap: cell `a` is `cells[a]`; allocation appends. -/
abbrev Heap := List Chunk

/-- Dereference an address. -/
def readH (h : Heap) (a : Nat) : Chunk := h.getD a default

/-- Overwrite the cell at an address. -/
def writeH (h : Heap) (a : Nat) (c : Chunk) : Heap := h.set a c

/-- Allocate a fresh cell (`chunk.copy()`), returning its address. -/
def allocH (h : Heap) (c : Chunk) : Nat × Heap := (h.length, h ++ [c])

/-- The loop of `merge_small_chunks` over the heap: `curr` is the address of
the pending copy, `merged` the addresses appended to the result so far. -/
def mergeLoopH : List Nat → Option Nat → List Nat → Heap → List Nat × Heap
  | [], curr, merged, h =>
    match curr with
    | some c => if MIN_CHUNK_SIZE ≤ (readH h c).text.length then (merged ++ [c], h)
                else (merged, h)
    | none => (merged, h)
  | a :: rest, none, merged, h =>
    let p := allocH h (readH h a)
    mergeLoopH rest (some p.1) merged p.2
  | a :: rest, some c, merged, h =>
    if (readH h c).section_id = (readH h a).section_id ∧
        (readH h c).text.length + (readH h a).text.length + 2 ≤ MAX_CHUNK_SIZE then
      mergeLoopH rest (some c) merged
        (writeH h c { readH h c with text := (readH h c).text ++ nlnl ++ (readH h a).text })
    else
      let merged' := if MIN_CHUNK_SIZE ≤ (readH h c).text.length then merged ++ [c]
                     else merged
      let p := allocH h (readH h a)
      mergeLoopH rest (some p.1) merged' p.2

/-- `merge_small_chunks` over the heap: takes the addresses of the input
chunks, returns the addresses of the output chunks and the final heap. -/
def merge_small_chunksH (addrs : List Nat) (h : Heap) : List Nat × Heap :=
  if addrs.isEmpty then (addrs, h) else mergeLoopH addrs none [] h

/-!
## Provenance labels and id decoding (used for the ordering claims)
-/

/-- Everything of a chunk except its text: the owning section and appendix. -/
def label (c : Chunk) : Str × Str × Str × Str := (c.appendix, c.appendix_title, c.section_id, c.section_title)

/-- The same label on an output chunk. -/
def labelO (c : OutChunk) : Str × Str × Str × Str :=
  (c.appendix, c.appendix_title, c.section_id, c.section_title)

/-- The canonical per-section label sequence: appendix files in sorted order,
sections in their input order. -/
def secLabels (files : List InputFile) : List (Str × Str × Str × Str) :=
  (sortFiles files).flatMap fun f =>
    f.data.sections.map fun s => (f.data.letter, f.data.title, s.id, s.title)

/-- Numeric value of a decimal digit character. -/
def digitVal (c : Char) : Nat := c.toNat - 48

/-- Decode a decimal string (left inverse of `natDigits`). -/
def decodeDigits (s : Str) : Nat := s.foldl (fun a c => a * 10 + digitVal c) 0

/-!
## Concrete corpora used by the counterexamples and witnesses
-/

/-- A 2100-character section body with no paragraph boundary. -/
def exA1 : Str := List.replicate 2100 'a'

/-- A 300-character section body. -/
def exB1 : Str := List.replicate 300 'b'

/-- Corpus 1: one appendix with a 2100-char section followed by a 300-char
section (distinct section ids). -/
def exFiles1 : List InputFile :=
  [⟨"a.json".toList,
    ⟨"A".toList, "Appendix A".toList,
     [⟨"s1".toList, "t1".toList, exA1⟩, ⟨"s2".toList, "t2".toList, exB1⟩]⟩⟩]

/-- Corpus 2: two adjacent sections of 50 and 60 characters sharing the same
section id. -/
def exFiles2 : List InputFile :=
  [⟨"a.json".toList,
    ⟨"A".toList, "Appendix A".toList,
     [⟨"x".toList, "t1".toList, List.replicate 50 'a'⟩,
      ⟨"x".toList, "t2".toList, List.replicate 60 'b'⟩]⟩⟩]

/-- A 2102-character section body: 2100 blanks followed by `hi`. -/
def exContent3 : Str := List.replicate 2100 ' ' ++ "hi".toList

/-- A 5000-character section body of four paragraphs sized 1244, 1244, 1244
and 1262, separated by blank lines. -/
def exContent4 : Str :=
  List.replicate 1244 'a' ++ nlnl ++ List.replicate 1244 'a' ++ nlnl ++
    List.replicate 1244 'a' ++ nlnl ++ List.replicate 1262 'a'

/-- A 5000-character section body with no paragraph boundary. -/
def exContent5 : Str := List.replicate 5000 'a'

/-- A 300-character section body carrying leading whitespace. -/
def exContent10 : Str := ' ' :: List.replicate 299 'a'

/-- Two input files with distinct names, used to exercise the sort. -/
def exFileA : InputFile :=
  ⟨"a.json".toList,
   ⟨"A".toList, "Appendix A".toList, [⟨"s1".toList, "t1".toList, exB1⟩]⟩⟩

/-- Second input file for the determinism witness. -/
def exFileB : InputFile :=
  ⟨"b.json".toList,
   ⟨"B".toList, "Appendix B".toList, [⟨"s9".toList, "t9".toList, exB1⟩]⟩⟩

/-!
## Executable twin of the paragraph scanner

`paraSplit` is defined by well-founded recursion and therefore does not
reduce inside `decide`; `paraSplitF` is the same function driven by a fuel
counter, provably equal when the fuel covers the input length.  Concrete
evaluations go through `split_into_paragraphs_eval`.
-/

/-- Fueled version of `paraSplit`. -/
def paraSplitF : Nat → Str → Str → List Str
  | _, [], acc => [acc.reverse]
  | 0, s, acc => [acc.reverse ++ s]
  | fuel + 1, c :: rest, acc =>
    if c = '\n' then
      match alt1Len rest with
      | some k => acc.reverse :: paraSplitF fuel (rest.drop k) []
      | none =>
        if headingLookahead rest then
          acc.reverse :: paraSplitF fuel rest []
        else
          paraSplitF fuel rest (c :: acc)
    else paraSplitF fuel rest (c :: acc)

theorem paraSplit_nil (acc : Str) : paraSplit [] acc = [acc.reverse] := by
  rw [paraSplit]

theorem paraSplit_nl_alt1 {rest : Str} {k : Nat} (h : alt1Len rest = some k) (acc : Str) :
    paraSplit ('\n' :: rest) acc = acc.reverse :: paraSplit (rest.drop k) [] := by
  rw [paraSplit.eq_def]; simp [h]

theorem paraSplit_nl_head {rest : Str} (h : alt1Len rest = none)
    (hh : headingLookahead rest = true) (acc : Str) :
    paraSplit ('\n' :: rest) acc = acc.reverse :: paraSplit rest [] := by
  rw [paraSplit.eq_def]; simp [h, hh]

theorem paraSplit_nl_acc {rest : Str} (h : alt1Len rest = none)
    (hh : headingLookahead rest = false) (acc : Str) :
    paraSplit ('\n' :: rest) acc = paraSplit rest ('\n' :: acc) := by
  rw [paraSplit.eq_def]; simp [h, hh]

theorem paraSplit_cons {c : Char} (hc : ¬c = '\n') (rest acc : Str) :
    paraSplit (c :: rest) acc = paraSplit rest (c :: acc) := by
  rw [paraSplit.eq_def]; simp [hc]

theorem paraSplitF_eq :
    ∀ (fuel : Nat) (s acc : Str), s.length ≤ fuel →
      paraSplitF fuel s acc = paraSplit s acc := by
  intro fuel
  induction fuel with
  | zero =>
    intro s acc h
    have : s = [] := List.length_eq_zero.mp (Nat.le_zero.mp h)
    subst this
    rw [paraSplitF, paraSplit_nil]
  | succ n ih =>
    intro s acc h
    match s with
    | [] => rw [paraSplitF, paraSplit_nil]
    | c :: rest =>
      have hr : rest.length ≤ n := by
        simp only [List.length_cons] at h; omega
      by_cases hc : c = '\n'
      · subst hc
        cases halt : alt1Len rest with
        | some k =>
          have hd : (rest.drop k).length ≤ n := by
            simp only [List.length_drop]; omega
          simp only [paraSplitF, halt, if_pos]
          rw [paraSplit_nl_alt1 halt, ih _ _ hd]
        | none =>
          by_cases hh : headingLookahead rest
          · simp only [paraSplitF, halt, hh, if_pos, if_true]
            rw [paraSplit_nl_head halt hh, ih _ _ hr]
          · have hh' : headingLookahead rest = false := by
              exact Bool.eq_false_iff.mpr hh
            simp only [paraSplitF, halt, hh', if_pos, if_false,
              Bool.false_eq_true]
            rw [paraSplit_nl_acc halt hh', ih _ _ hr]
      · rw [paraSplitF, if_neg hc, paraSplit_cons hc, ih _ _ hr]

/-- Evaluation form of `split_into_paragraphs` for concrete inputs. -/
theorem split_into_paragraphs_eval (t : Str) :
    split_into_paragraphs t
      = ((paraSplitF t.length t []).map strip).filter (fun p => !p.isEmpty) := by
  rw [split_into_paragraphs, paraSplitF_eq t.length t [] (Nat.le_refl _)]

/-!
## Toolkit: `strip`, replicate strings, and the scanner on block-shaped text
-/

theorem dropWhile_eq_self_of_head {p : Char → Bool} :
    ∀ {s : Str}, (∀ c, s.head? = some c → p c = false) → s.dropWhile p = s
  | [], _ => rfl
  | c :: t, h => by
    rw [List.dropWhile_cons, h c rfl]
    simp

theorem strip_eq_self_of_ends {s : Str}
    (h1 : ∀ c, s.head? = some c → isWS c = false)
    (h2 : ∀ c, s.getLast? = some c → isWS c = false) : strip s = s := by
  unfold strip
  rw [dropWhile_eq_self_of_head h1,
    dropWhile_eq_self_of_head (fun c hc => h2 c (by rwa [List.head?_reverse] at hc)),
    List.reverse_reverse]

theorem dropWhile_ws_replicate {c : Char} (h : isWS c = false) (n : Nat) :
    List.dropWhile isWS (List.replicate n c) = List.replicate n c := by
  cases n with
  | zero => rfl
  | succ m => rw [List.replicate_succ, List.dropWhile_cons, h]; simp

theorem strip_replicate {c : Char} (h : isWS c = false) (n : Nat) :
    strip (List.replicate n c) = List.replicate n c := by
  unfold strip
  rw [dropWhile_ws_replicate h, List.reverse_replicate, dropWhile_ws_replicate h,
    List.reverse_replicate]

theorem head?_replicate_append {c : Char} {n : Nat} (h : 1 ≤ n) (t : Str) :
    (List.replicate n c ++ t).head? = some c := by
  obtain ⟨m, rfl⟩ : ∃ m, n = m + 1 := ⟨n - 1, by omega⟩
  rw [List.replicate_succ]
  rfl

theorem getLast?_append_replicate {c : Char} {n : Nat} (h : 1 ≤ n) (t : Str) :
    (t ++ List.replicate n c).getLast? = some c := by
  obtain ⟨m, rfl⟩ : ∃ m, n = m + 1 := ⟨n - 1, by omega⟩
  rw [List.replicate_succ' m c, ← List.append_assoc, List.getLast?_concat]

theorem paraSplit_noNL (s : Str) :
    ∀ acc, (∀ c ∈ s, ¬c = '\n') → paraSplit s acc = [acc.reverse ++ s] := by
  induction s with
  | nil =>
    intro acc _
    rw [paraSplit_nil]
    simp
  | cons c t ih =>
    intro acc h
    rw [paraSplit_cons (h c (by simp)) t acc, ih _ (fun d hd => h d (by simp [hd]))]
    simp

theorem alt1Len_nl_cons {b : Char} (hb : isWS b = false) (t : Str) :
    alt1Len ('\n' :: b :: t) = some 1 := by
  unfold alt1Len
  have h1 : isWS '\n' = true := by decide
  simp only [List.takeWhile_cons, h1, hb, if_true, Bool.false_eq_true, if_false]
  decide

theorem paraSplit_sep (A : Str) (hA : ∀ c ∈ A, ¬c = '\n') {b : Char} (hb : isWS b = false)
    (B acc : Str) :
    paraSplit (A ++ '\n' :: '\n' :: b :: B) acc
      = (acc.reverse ++ A) :: paraSplit (b :: B) [] := by
  induction A generalizing acc with
  | nil =>
    rw [List.nil_append, paraSplit_nl_alt1 (alt1Len_nl_cons hb B)]
    simp
  | cons a A' ih =>
    rw [List.cons_append, paraSplit_cons (hA a (by simp)) _ acc,
      ih (fun d hd => hA d (by simp [hd]))]
    simp

/-- A text whose stripped length reaches 100 is never filtered, whatever the
patterns match. -/
theorem is_placeholder_content_false_of_long {text : Str}
    (h : 100 ≤ (strip text).length) : is_placeholder_content text = false := by
  unfold is_placeholder_content
  simp only [List.any_eq_false]
  intro p hp
  have h' : ¬((strip text).length < 100) := by omega
  simp [h']

theorem split_into_paragraphs_replicate {c : Char} (hc1 : ¬c = '\n') (hc2 : isWS c = false)
    {n : Nat} (hn : 1 ≤ n) :
    split_into_paragraphs (List.replicate n c) = [List.replicate n c] := by
  unfold split_into_paragraphs
  rw [paraSplit_noNL _ _ (fun d hd => by rw [List.eq_of_mem_replicate hd]; exact hc1)]
  have hne : List.replicate n c ≠ [] := by
    simp [← List.length_pos_iff_ne_nil]; omega
  simp [strip_replicate hc2, hne]

theorem splitLoop_single (sid stitle ap apt : Str) (p : Str) :
    splitLoop sid stitle ap apt [p] [] = ([], p) := by
  simp only [splitLoop]
  rw [if_neg (by simp [MIN_CHUNK_SIZE])]
  simp [splitLoop]

/-- The section chunker on a section that is one huge uniform paragraph:
a single chunk carrying the entire (stripped) section text. -/
theorem create_replicate_big {c : Char} (hc1 : ¬c = '\n') (hc2 : isWS c = false)
    {n : Nat} (hbig : MAX_CHUNK_SIZE < n) (sid stitle ap apt : Str) :
    create_chunks_from_section (List.replicate n c) sid stitle ap apt
      = [⟨List.replicate n c, sid, stitle, ap, apt⟩] := by
  have hb : 2000 < n := by simpa [MAX_CHUNK_SIZE] using hbig
  unfold create_chunks_from_section
  have hlong : 100 ≤ (strip (List.replicate n c)).length := by
    rw [strip_replicate hc2]
    simp
    omega
  have hmax : ¬((List.replicate n c).length ≤ MAX_CHUNK_SIZE) := by
    simp [MAX_CHUNK_SIZE]
    omega
  rw [is_placeholder_content_false_of_long hlong, if_neg (by simp), if_neg hmax,
    split_into_paragraphs_replicate hc1 hc2 (by omega)]
  simp only [splitLoop_single, strip_replicate hc2]
  have hcond : ¬(List.replicate n c).isEmpty = true ∧
      MIN_CHUNK_SIZE ≤ (List.replicate n c).length := by
    refine ⟨?_, ?_⟩
    · simp [List.isEmpty_iff]
      omega
    · simp [MIN_CHUNK_SIZE]
      omega
  rw [if_pos hcond]
  simp

/-- The section chunker on a section of at most `MAX_CHUNK_SIZE` characters:
one verbatim chunk when the minimum is met, nothing otherwise. -/
theorem create_small {content : Str} (hph : is_placeholder_content content = false)
    (hmax : content.length ≤ MAX_CHUNK_SIZE) (sid stitle ap apt : Str) :
    create_chunks_from_section content sid stitle ap apt
      = if MIN_CHUNK_SIZE ≤ content.length then [⟨content, sid, stitle, ap, apt⟩]
        else [] := by
  unfold create_chunks_from_section
  rw [hph, if_neg (by simp), if_pos hmax]

theorem natDigits_small {n : Nat} (h : n < 10) : natDigits n = [digitChar n] := by
  rw [natDigits.eq_def]
  simp [h]

/-!
## Lower bound of the merge pass, and evaluation of corpus 1
-/

theorem mergeLoop_min :
    ∀ (l : List Chunk) (curr : Option Chunk),
      ∀ c ∈ mergeLoop curr l, MIN_CHUNK_SIZE ≤ c.text.length := by
  intro l
  induction l with
  | nil =>
    intro curr c hc
    cases curr with
    | none => simp [mergeLoop] at hc
    | some d =>
      simp only [mergeLoop] at hc
      split at hc
      · rename_i hmin
        rw [List.mem_singleton.mp hc]
        exact hmin
      · simp at hc
  | cons x rest ih =>
    intro curr c hc
    cases curr with
    | none =>
      simp only [mergeLoop] at hc
      exact ih _ c hc
    | some d =>
      simp only [mergeLoop] at hc
      split at hc
      · exact ih _ c hc
      · split at hc
        · rename_i hmin
          rcases List.mem_cons.mp hc with h | h
          · rw [h]; exact hmin
          · exact ih _ c h
        · exact ih _ c hc

theorem merge_small_chunks_min (l : List Chunk) :
    ∀ c ∈ merge_small_chunks l, MIN_CHUNK_SIZE ≤ c.text.length := by
  intro c hc
  unfold merge_small_chunks at hc
  split at hc
  · simp_all [List.isEmpty_iff]
  · exact mergeLoop_min l none c hc

theorem mem_addIdsFrom :
    ∀ (l : List Chunk) (i : Nat) (c : OutChunk),
      c ∈ addIdsFrom i l → ∃ d ∈ l, c.text = d.text := by
  intro l
  induction l with
  | nil => intro i c hc; simp [addIdsFrom] at hc
  | cons x rest ih =>
    intro i c hc
    rcases List.mem_cons.mp hc with h | h
    · exact ⟨x, by simp, by rw [h]⟩
    · obtain ⟨d, hd, he⟩ := ih (i + 1) c h
      exact ⟨d, by simp [hd], he⟩

theorem create_exA1_eval :
    create_chunks_from_section exA1 "s1".toList "t1".toList "A".toList "Appendix A".toList
      = [⟨exA1, "s1".toList, "t1".toList, "A".toList, "Appendix A".toList⟩] := by
  unfold exA1
  exact create_replicate_big (by decide) (by decide) (by simp [MAX_CHUNK_SIZE]) _ _ _ _

theorem create_exB1_eval :
    create_chunks_from_section exB1 "s2".toList "t2".toList "A".toList "Appendix A".toList
      = [⟨exB1, "s2".toList, "t2".toList, "A".toList, "Appendix A".toList⟩] := by
  have hph2 : is_placeholder_content exB1 = false := by
    unfold exB1
    refine is_placeholder_content_false_of_long ?_
    rw [strip_replicate (by decide)]
    simp only [List.length_replicate]
    omega
  rw [create_small hph2 (by simp [exB1, MAX_CHUNK_SIZE])]
  rw [if_pos (by simp [exB1, MIN_CHUNK_SIZE])]

/-- Evaluation of the merge pass on two well-sized chunks of distinct
sections. -/
theorem merge_small_chunks_pair {c1 c2 : Chunk} (hne : ¬c1.section_id = c2.section_id)
    (h1 : MIN_CHUNK_SIZE ≤ c1.text.length) (h2 : MIN_CHUNK_SIZE ≤ c2.text.length) :
    merge_small_chunks [c1, c2] = [c1, c2] := by
  unfold merge_small_chunks
  rw [if_neg (by simp)]
  simp only [mergeLoop]
  rw [if_neg (fun h => hne h.1), if_pos h1, if_pos h2]

theorem pipeline_exFiles1 :
    pipeline exFiles1
      = [⟨chunkId 0, exA1, "s1".toList, "t1".toList, "A".toList, "Appendix A".toList⟩,
         ⟨chunkId 1, exB1, "s2".toList, "t2".toList, "A".toList, "Appendix A".toList⟩] := by
  have h1 := create_exA1_eval
  have h2 := create_exB1_eval
  unfold pipeline sortFiles exFiles1
  rw [List.mergeSort_singleton]
  simp only [List.flatMap_cons, List.flatMap_nil, process_appendix, h1, h2,
    List.append_nil, List.nil_append, List.cons_append]
  rw [merge_small_chunks_pair (by decide) (by simp [exA1, MIN_CHUNK_SIZE])
    (by simp [exB1, MIN_CHUNK_SIZE])]
  simp [addIds, addIdsFrom]

/-- A section shorter than `MIN_CHUNK_SIZE` never yields a chunk from the
section chunker (whether or not it is placeholder content). -/
theorem create_below_min {content : Str} (h : content.length < MIN_CHUNK_SIZE)
    (sid stitle ap apt : Str) :
    create_chunks_from_section content sid stitle ap apt = [] := by
  unfold create_chunks_from_section
  split
  · rfl
  · have h' : content.length < 200 := by simpa [MIN_CHUNK_SIZE] using h
    rw [if_pos (by simp [MAX_CHUNK_SIZE]; omega), if_neg (by simp [MIN_CHUNK_SIZE]; omega)]

/-- A one-file corpus all of whose sections are below `MIN_CHUNK_SIZE`
produces an empty output. -/
theorem pipeline_single_small_sections (f : InputFile)
    (h : ∀ s ∈ f.data.sections, s.content.length < MIN_CHUNK_SIZE) :
    pipeline [f] = [] := by
  unfold pipeline sortFiles
  rw [List.mergeSort_singleton]
  have hfm : process_appendix f.data = [] := by
    unfold process_appendix
    rw [List.flatMap_eq_nil_iff.mpr]
    intro s hs
    exact create_below_min (h s hs) _ _ _ _
  simp [hfm, merge_small_chunks, addIds, addIdsFrom]

/-- C1 (amended): every chunk record in the final output list has text length
at least MIN_CHUNK_SIZE (200).  The claimed upper bound MAX_CHUNK_SIZE does
not hold except for the last chunk: any section consisting of a single
paragraph longer than MAX_CHUNK_SIZE yields an oversized chunk that can sit
anywhere in the output (see the counterexample). -/
theorem c1_chunk_min_length (files : List InputFile) :
    ∀ c ∈ pipeline files, MIN_CHUNK_SIZE ≤ c.text.length := by
  intro c hc
  unfold pipeline addIds at hc
  obtain ⟨d, hd, he⟩ := mem_addIdsFrom _ _ _ hc
  rw [he]
  exact merge_small_chunks_min _ d hd

/-- C1 witness: the lower bound evaluated on corpus 1. -/
theorem c1_witness :
    MIN_CHUNK_SIZE ≤ (⟨chunkId 1, exB1, "s2".toList, "t2".toList, "A".toList,
      "Appendix A".toList⟩ : OutChunk).text.length :=
  c1_chunk_min_length exFiles1 _ (by rw [pipeline_exFiles1]; simp)

/-- C1 counterexample: on corpus 1 the *first* of two output chunks has text
length 2100 > MAX_CHUNK_SIZE, so a chunk that is not the last chunk of the
last section violates the claimed upper bound. -/
theorem c1_counterexample :
    (pipeline exFiles1).map (fun c => c.text.length) = [2100, 300]
    ∧ (pipeline exFiles1).length = 2
    ∧ ¬(2100 ≤ MAX_CHUNK_SIZE) := by
  rw [pipeline_exFiles1]
  refine ⟨by simp [exA1, exB1], by simp, by simp [MAX_CHUNK_SIZE]⟩

/-- C2 (amended): a section shorter than MIN_CHUNK_SIZE produces no chunk at
all from the section chunker, so two adjacent sections of 50 and 60
characters sharing a section id are not merged into one chunk: they
contribute nothing to the output and never reach the cross-section merge
pass. -/
theorem c2_small_sections_dropped (f : InputFile)
    (h : ∀ s ∈ f.data.sections, s.content.length < MIN_CHUNK_SIZE) :
    pipeline [f] = [] :=
  pipeline_single_small_sections f h

/-- C2 witness: a single 40-character section yields an empty output. -/
theorem c2_witness :
    pipeline [⟨"z.json".toList,
      ⟨"Z".toList, "T".toList, [⟨"y".toList, "t".toList, List.replicate 40 'c'⟩]⟩⟩]
      = [] :=
  c2_small_sections_dropped _ (by
    intro s hs
    rw [List.mem_singleton.mp hs]
    simp [MIN_CHUNK_SIZE])

/-- C2 counterexample: corpus 2 holds exactly the two adjacent 50- and
60-character sections of the claim, with a common section id and combined
length within MAX_CHUNK_SIZE, yet the pipeline emits no chunk at all — in
particular no merged chunk of length at least 110. -/
theorem c2_counterexample :
    pipeline exFiles2 = []
    ∧ 50 + 60 + 2 ≤ MAX_CHUNK_SIZE
    ∧ 50 < MIN_CHUNK_SIZE ∧ 60 < MIN_CHUNK_SIZE := by
  refine ⟨?_, by simp [MAX_CHUNK_SIZE], by simp [MIN_CHUNK_SIZE], by simp [MIN_CHUNK_SIZE]⟩
  unfold exFiles2
  refine pipeline_single_small_sections _ ?_
  intro s hs
  rcases List.mem_cons.mp hs with h | h
  · rw [h]; simp [MIN_CHUNK_SIZE]
  · rw [List.mem_singleton.mp h]; simp [MIN_CHUNK_SIZE]

/-- C6: a non-placeholder section of at most MAX_CHUNK_SIZE characters
yields exactly one verbatim chunk when its length reaches MIN_CHUNK_SIZE,
and no chunk when it is below MIN_CHUNK_SIZE. -/
theorem c6_bounded_section_verbatim (content sid stitle ap apt : Str)
    (hph : is_placeholder_content content = false)
    (hmax : content.length ≤ MAX_CHUNK_SIZE) :
    (MIN_CHUNK_SIZE ≤ content.length →
      create_chunks_from_section content sid stitle ap apt
        = [⟨content, sid, stitle, ap, apt⟩])
    ∧ (content.length < MIN_CHUNK_SIZE →
      create_chunks_from_section content sid stitle ap apt = []) := by
  constructor
  · intro h
    rw [create_small hph hmax, if_pos h]
  · intro h
    rw [create_small hph hmax, if_neg (by omega)]

/-- C6 witness: a 1500-character section yields exactly one verbatim chunk. -/
theorem c6_witness :
    create_chunks_from_section (List.replicate 1500 'a') "s".toList "t".toList
      "A".toList "TA".toList
      = [⟨List.replicate 1500 'a', "s".toList, "t".toList, "A".toList, "TA".toList⟩] :=
  (c6_bounded_section_verbatim _ _ _ _ _
    (is_placeholder_content_false_of_long
      (by rw [strip_replicate (by decide)]; simp))
    (by simp [MAX_CHUNK_SIZE])).1 (by simp [MIN_CHUNK_SIZE])

/-- C5: the placeholder filter fires exactly when some placeholder pattern
occurs in the (lowered, stripped) content AND the stripped content is shorter
than 100 characters; consequently a section of 100+ stripped characters is
never discarded, and a section that is exactly `[placeholder]` yields zero
chunks. -/
theorem c5_placeholder_filter :
    (∀ text : Str, is_placeholder_content text = true ↔
      ((∃ p ∈ PLACEHOLDER_PATTERNS, (lower p) <:+: strip (lower text))
        ∧ (strip text).length < 100))
    ∧ (∀ text : Str, 100 ≤ (strip text).length →
        is_placeholder_content text = false)
    ∧ (∀ sid stitle ap apt : Str,
        create_chunks_from_section "[placeholder]".toList sid stitle ap apt = []) := by
  refine ⟨?_, fun text h => is_placeholder_content_false_of_long h, ?_⟩
  · intro text
    unfold is_placeholder_content containsSub
    simp only [List.any_eq_true, Bool.and_eq_true, decide_eq_true_eq]
    constructor
    · rintro ⟨p, hp, hinf, hlen⟩
      exact ⟨⟨p, hp, hinf⟩, hlen⟩
    · rintro ⟨⟨p, hp, hinf⟩, hlen⟩
      exact ⟨p, hp, hinf, hlen⟩
  · intro sid stitle ap apt
    unfold create_chunks_from_section
    rw [if_pos (by decide)]

/-- C5 witness: a 120-character section is never treated as placeholder. -/
theorem c5_witness : is_placeholder_content (List.replicate 120 'a') = false :=
  c5_placeholder_filter.2.1 _ (by rw [strip_replicate (by decide)]; simp)

/-!
## Strip-fixedness machinery (whitespace at chunk edges)
-/

theorem head?_dropWhile_not {p : Char → Bool} :
    ∀ {s : Str} {c : Char}, (s.dropWhile p).head? = some c → p c = false := by
  intro s
  induction s with
  | nil => intro c h; simp [List.dropWhile] at h
  | cons a t ih =>
    intro c h
    rw [List.dropWhile_cons] at h
    by_cases hp : p a
    · rw [if_pos hp] at h
      exact ih h
    · rw [if_neg hp] at h
      cases h
      exact Bool.eq_false_iff.mpr hp

theorem suffix_getLast? {s t : List Char} (h : s <:+ t) (hne : s ≠ []) :
    t.getLast? = s.getLast? := by
  obtain ⟨u, rfl⟩ := h
  rw [List.getLast?_append_of_ne_nil _ hne]

theorem strip_getLast_not_ws {s : Str} {c : Char} (h : (strip s).getLast? = some c) :
    isWS c = false := by
  unfold strip at h
  rw [List.getLast?_reverse] at h
  exact head?_dropWhile_not h

theorem strip_head_not_ws {s : Str} {c : Char} (h : (strip s).head? = some c) :
    isWS c = false := by
  unfold strip at h
  rw [List.head?_reverse] at h
  by_cases hd : ((s.dropWhile isWS).reverse.dropWhile isWS) = []
  · rw [hd] at h
    simp at h
  · have heq := suffix_getLast? (List.dropWhile_suffix isWS) hd
    rw [← heq, List.getLast?_reverse] at h
    exact head?_dropWhile_not h

theorem strip_idem (s : Str) : strip (strip s) = strip s :=
  strip_eq_self_of_ends (fun _ h => strip_head_not_ws h) (fun _ h => strip_getLast_not_ws h)

theorem strip_fixed_append {a b : Str} (ha : strip a = a) (hb : strip b = b)
    (hna : a ≠ []) (hnb : b ≠ []) (mid : Str) :
    strip (a ++ mid ++ b) = a ++ mid ++ b := by
  refine strip_eq_self_of_ends ?_ ?_
  · intro c hc
    rw [List.append_assoc, List.head?_append_of_ne_nil _ hna] at hc
    exact strip_head_not_ws (ha.symm ▸ hc)
  · intro c hc
    rw [List.getLast?_append_of_ne_nil _ hnb] at hc
    exact strip_getLast_not_ws (hb.symm ▸ hc)

/-- A string whose strip is itself and non-empty has some non-blank char. -/
theorem ink_of_strip_fixed {s : Str} (h : strip s = s) (hne : s ≠ []) :
    ∃ c ∈ s, isWS c = false := by
  match s, hne with
  | c :: t, _ =>
    refine ⟨c, by simp, ?_⟩
    refine @strip_head_not_ws (c :: t) c ?_
    rw [h]
    rfl

theorem ink_dropWhile {s : Str} (h : ∃ c ∈ s, isWS c = false) :
    ∃ c ∈ s.dropWhile isWS, isWS c = false := by
  induction s with
  | nil => simp at h
  | cons a t ih =>
    rw [List.dropWhile_cons]
    by_cases ha : isWS a
    · rw [if_pos ha]
      refine ih ?_
      obtain ⟨c, hc, hcw⟩ := h
      rcases List.mem_cons.mp hc with rfl | hc'
      · rw [ha] at hcw; cases hcw
      · exact ⟨c, hc', hcw⟩
    · rw [if_neg ha]
      exact h

theorem ink_strip {s : Str} (h : ∃ c ∈ s, isWS c = false) :
    ∃ c ∈ strip s, isWS c = false := by
  unfold strip
  have h1 := ink_dropWhile h
  have h2 : ∃ c ∈ (s.dropWhile isWS).reverse, isWS c = false := by
    obtain ⟨c, hc, hw⟩ := h1
    exact ⟨c, List.mem_reverse.mpr hc, hw⟩
  have h3 := ink_dropWhile h2
  obtain ⟨c, hc, hw⟩ := h3
  exact ⟨c, List.mem_reverse.mpr hc, hw⟩

theorem strip_ne_nil_of_ink {s : Str} (h : ∃ c ∈ s, isWS c = false) :
    ¬(strip s).isEmpty = true := by
  obtain ⟨c, hc, _⟩ := ink_strip h
  simp [List.isEmpty_iff]
  exact List.ne_nil_of_mem hc

/-- Infix occurrences of a blank-free-edged string survive `strip`. -/
theorem infix_dropWhile_of_head {p : Str}
    (hh : ∀ c, p.head? = some c → isWS c = false) :
    ∀ {s : Str}, p <:+: s → p <:+: s.dropWhile isWS := by
  intro s
  induction s with
  | nil =>
    intro h
    simpa using h
  | cons a t ih =>
    intro h
    rcases List.infix_cons_iff.mp h with hpre | hinf
    · match p, hh, h, hpre with
      | [], _, _, _ => simp
      | c :: p', hh, h, hpre =>
        have hc : isWS c = false := hh c rfl
        obtain ⟨r, hr⟩ := hpre
        rw [List.cons_append] at hr
        cases hr
        rw [List.dropWhile_cons, if_neg (by simp [hc])]
        exact h
    · by_cases ha : isWS a
      · rw [List.dropWhile_cons, if_pos ha]
        exact ih hinf
      · rw [List.dropWhile_cons, if_neg ha]
        exact List.infix_cons hinf

theorem infix_strip {p : Str}
    (hh : ∀ c, p.head? = some c → isWS c = false)
    (hl : ∀ c, p.getLast? = some c → isWS c = false)
    {s : Str} (h : p <:+: s) : p <:+: strip s := by
  unfold strip
  have h1 := infix_dropWhile_of_head hh h
  have h2 : p.reverse <:+: (s.dropWhile isWS).reverse := by
    rw [List.reverse_infix]
    exact h1
  have h3 := infix_dropWhile_of_head
    (fun c hc => hl c (by rwa [List.head?_reverse] at hc)) h2
  have h4 : p.reverse.reverse
      <:+: (List.dropWhile isWS ((s.dropWhile isWS).reverse)).reverse := by
    rw [List.reverse_infix]
    exact h3
  simpa using h4

/-- Every paragraph produced by `split_into_paragraphs` is non-empty and has
no whitespace at its edges. -/
theorem split_paragraph_props {t p : Str} (hp : p ∈ split_into_paragraphs t) :
    p ≠ [] ∧ strip p = p := by
  unfold split_into_paragraphs at hp
  obtain ⟨hmem, hne⟩ := List.mem_filter.mp hp
  obtain ⟨q, _, rfl⟩ := List.mem_map.mp hmem
  refine ⟨by simpa [List.isEmpty_iff] using hne, strip_idem q⟩

theorem appendToLast_mem :
    ∀ (cs : List Chunk) (t : Str) (ch : Chunk),
      ch ∈ appendToLast cs t →
        ch ∈ cs ∨ ∃ c ∈ cs, ch = { c with text := c.text ++ t } := by
  intro cs
  induction cs with
  | nil =>
    intro t ch h
    simp [appendToLast] at h
  | cons c cs' ih =>
    intro t ch h
    cases cs' with
    | nil =>
      simp only [appendToLast, List.mem_singleton] at h
      exact Or.inr ⟨c, by simp, h⟩
    | cons c2 cs2 =>
      simp only [appendToLast] at h
      rcases List.mem_cons.mp h with rfl | h2
      · exact Or.inl (by simp)
      · rcases ih t ch h2 with h3 | ⟨d, hd, he⟩
        · exact Or.inl (List.mem_cons_of_mem _ h3)
        · exact Or.inr ⟨d, List.mem_cons_of_mem _ hd, he⟩

/-- Invariant of the accumulation loop: all flushed chunks carry non-empty,
whitespace-trimmed text, and the running buffer is empty or has ink. -/
theorem splitLoop_strip_inv (sid stitle ap apt : Str) :
    ∀ (paras : List Str) (current : Str),
      (∀ p ∈ paras, p ≠ [] ∧ strip p = p) →
      (current = [] ∨ ∃ c ∈ current, isWS c = false) →
      (∀ ch ∈ (splitLoop sid stitle ap apt paras current).1,
          strip ch.text = ch.text ∧ ch.text ≠ [])
      ∧ ((splitLoop sid stitle ap apt paras current).2 = []
          ∨ ∃ c ∈ (splitLoop sid stitle ap apt paras current).2, isWS c = false) := by
  intro paras
  induction paras with
  | nil =>
    intro current hp hcur
    exact ⟨fun ch hch => by simp [splitLoop] at hch, by simpa [splitLoop] using hcur⟩
  | cons para rest ih =>
    intro current hp hcur
    have hpara := hp para (by simp)
    have hink : ∃ c ∈ para, isWS c = false := ink_of_strip_fixed hpara.2 hpara.1
    have hrest : ∀ p ∈ rest, p ≠ [] ∧ strip p = p := fun p h => hp p (by simp [h])
    simp only [splitLoop]
    split
    · rename_i hcond
      have hcur' : ∃ c ∈ current, isWS c = false := by
        rcases hcur with rfl | h
        · exfalso
          have := hcond.2
          simp [MIN_CHUNK_SIZE] at this
        · exact h
      have hnew : ∀ (buf : Str), (buf = [] ∨ ∃ c ∈ buf, isWS c = false) →
          (∀ ch ∈ (splitLoop sid stitle ap apt rest buf).1,
              strip ch.text = ch.text ∧ ch.text ≠ [])
          ∧ ((splitLoop sid stitle ap apt rest buf).2 = []
              ∨ ∃ c ∈ (splitLoop sid stitle ap apt rest buf).2, isWS c = false) :=
        fun buf hbuf => ih buf hrest hbuf
      have hbufink : ∀ (pre : Str),
          (∃ c ∈ (if pre.isEmpty then para else pre ++ nlnl ++ para), isWS c = false) := by
        intro pre
        split
        · exact hink
        · obtain ⟨c, hc, hw⟩ := hink
          exact ⟨c, by simp [hc], hw⟩
      constructor
      · intro ch hch
        rcases List.mem_cons.mp hch with rfl | hch'
        · refine ⟨strip_idem current, ?_⟩
          have := strip_ne_nil_of_ink hcur'
          simpa [List.isEmpty_iff] using this
        · exact (hnew _ (Or.inr (hbufink _))).1 ch hch'
      · exact (hnew _ (Or.inr (hbufink _))).2
    · have hcur' : (if current.isEmpty then para else current ++ nlnl ++ para) = []
          ∨ ∃ c ∈ (if current.isEmpty then para else current ++ nlnl ++ para),
              isWS c = false := by
        refine Or.inr ?_
        split
        · exact hink
        · obtain ⟨c, hc, hw⟩ := hink
          exact ⟨c, by simp [hc], hw⟩
      exact ih _ hrest hcur'

/-- C10: every chunk emitted on the split path (section longer than
MAX_CHUNK_SIZE) has whitespace-trimmed text (`strip` leaves it unchanged),
whereas the single-chunk path returns the section content verbatim,
surrounding whitespace included. -/
theorem c10_split_chunks_trimmed :
    (∀ content sid stitle ap apt : Str, MAX_CHUNK_SIZE < content.length →
      ∀ ch ∈ create_chunks_from_section content sid stitle ap apt,
        strip ch.text = ch.text)
    ∧ (∀ content sid stitle ap apt : Str,
        is_placeholder_content content = false →
        MIN_CHUNK_SIZE ≤ content.length → content.length ≤ MAX_CHUNK_SIZE →
        create_chunks_from_section content sid stitle ap apt
          = [⟨content, sid, stitle, ap, apt⟩]) := by
  constructor
  · intro content sid stitle ap apt hlen ch hch
    unfold create_chunks_from_section at hch
    split at hch
    · simp at hch
    · rw [if_neg (by omega)] at hch
      simp only [] at hch
      have hinv := splitLoop_strip_inv sid stitle ap apt
        (split_into_paragraphs content) []
        (fun p hp => split_paragraph_props hp) (Or.inl rfl)
      split at hch
      · rename_i hguard
        rcases List.mem_append.mp hch with h | h
        · exact (hinv.1 ch h).1
        · rw [List.mem_singleton.mp h]
          exact strip_idem _
      · split at hch
        · rename_i hguard
          rcases appendToLast_mem _ _ _ hch with h | ⟨c, hc, rfl⟩
          · exact (hinv.1 ch h).1
          · have hcprops := hinv.1 c hc
            have hb : strip (strip (splitLoop sid stitle ap apt
                (split_into_paragraphs content) []).2)
                = strip (splitLoop sid stitle ap apt
                  (split_into_paragraphs content) []).2 := strip_idem _
            have hbne : strip (splitLoop sid stitle ap apt
                (split_into_paragraphs content) []).2 ≠ [] := by
              have := hguard.1
              simpa [List.isEmpty_iff] using this
            have := strip_fixed_append hcprops.1 hb hcprops.2 hbne nlnl
            simpa [List.append_assoc] using this
        · exact (hinv.1 ch hch).1
  · intro content sid stitle ap apt hph hmin hmax
    rw [create_small hph hmax, if_pos hmin]

theorem strip_exContent10 : strip exContent10 = List.replicate 299 'a' := by
  unfold strip exContent10
  rw [List.dropWhile_cons, if_pos (by decide), dropWhile_ws_replicate (by decide),
    List.reverse_replicate, dropWhile_ws_replicate (by decide), List.reverse_replicate]

/-- C10 witness: the 2100-char split-path chunk is strip-fixed, and a
300-char section carrying leading whitespace is returned verbatim. -/
theorem c10_witness :
    strip (⟨exA1, "s1".toList, "t1".toList, "A".toList, "Appendix A".toList⟩ : Chunk).text
      = exA1
    ∧ create_chunks_from_section exContent10 "s".toList "t".toList "A".toList "T".toList
      = [⟨exContent10, "s".toList, "t".toList, "A".toList, "T".toList⟩] := by
  constructor
  · exact c10_split_chunks_trimmed.1 exA1 _ _ _ _ (by simp [exA1, MAX_CHUNK_SIZE]) _
      (by rw [create_exA1_eval]; simp)
  · exact c10_split_chunks_trimmed.2 exContent10 _ _ _ _
      (is_placeholder_content_false_of_long (by rw [strip_exContent10]; simp))
      (by simp [exContent10, MIN_CHUNK_SIZE])
      (by simp [exContent10, MAX_CHUNK_SIZE])

/-!
## The frame property of the heap-level merge
-/

theorem take_writeH_of_le {h : Heap} {n a : Nat} (hle : n ≤ a) (c : Chunk) :
    (writeH h a c).take n = h.take n := by
  unfold writeH
  rw [List.set_take]
  exact List.set_eq_of_length_le (le_trans (List.length_take_le n h) hle)

theorem mergeLoopH_frame :
    ∀ (rest : List Nat) (curr : Option Nat) (merged : List Nat) (h : Heap) (n : Nat),
      n ≤ h.length → (∀ a, curr = some a → n ≤ a) →
      ((mergeLoopH rest curr merged h).2).take n = h.take n := by
  intro rest
  induction rest with
  | nil =>
    intro curr merged h n hn hc
    cases curr with
    | none => rfl
    | some a =>
      simp only [mergeLoopH]
      split <;> rfl
  | cons a rest' ih =>
    intro curr merged h n hn hc
    cases curr with
    | none =>
      simp only [mergeLoopH, allocH]
      rw [ih _ _ _ n (by simp; omega) (fun b hb => by cases hb; exact hn)]
      rw [List.take_append_of_le_length hn]
    | some c =>
      simp only [mergeLoopH]
      split
      · rw [ih _ _ _ n (by simp [writeH]; omega)
          (fun b hb => by cases hb; exact hc c rfl)]
        exact take_writeH_of_le (hc c rfl) _
      · simp only [allocH]
        rw [ih _ _ _ n (by simp; omega) (fun b hb => by cases hb; exact hn)]
        rw [List.take_append_of_le_length hn]

/-- C9: `merge_small_chunks` never mutates the records of its input list:
over the explicit-heap model, every heap cell that existed before the call —
in particular every input chunk record — is unchanged afterwards; all text
growth happens on the freshly allocated copies. -/
theorem c9_merge_frame (addrs : List Nat) (h : Heap) :
    ((merge_small_chunksH addrs h).2).take h.length = h := by
  unfold merge_small_chunksH
  split
  · exact List.take_length h
  · rw [mergeLoopH_frame addrs none [] h h.length (Nat.le_refl _)
      (fun a ha => by cases ha)]
    exact List.take_length h

/-!
## The flush/overlap step of the accumulation loop, and corpus 4
-/

/-- The flush step: when the next paragraph would push past MAX and the
buffer meets MIN, the stripped buffer is flushed and the new buffer is the
trailing OVERLAP_SIZE characters plus the paragraph (or just the paragraph
when the buffer is no longer than the overlap). -/
theorem splitLoop_flush_step (sid stitle ap apt para current : Str) (rest : List Str)
    (h1 : MAX_CHUNK_SIZE < current.length + para.length + 2)
    (h2 : MIN_CHUNK_SIZE ≤ current.length) :
    splitLoop sid stitle ap apt (para :: rest) current
      = (⟨strip current, sid, stitle, ap, apt⟩ ::
          (splitLoop sid stitle ap apt rest
            (if current.length ≤ OVERLAP_SIZE then para
             else current.drop (current.length - OVERLAP_SIZE) ++ nlnl ++ para)).1,
         (splitLoop sid stitle ap apt rest
            (if current.length ≤ OVERLAP_SIZE then para
             else current.drop (current.length - OVERLAP_SIZE) ++ nlnl ++ para)).2) := by
  simp only [splitLoop]
  rw [if_pos ⟨h1, h2⟩]
  by_cases hov : OVERLAP_SIZE < current.length
  · rw [if_pos hov]
    have hne : ¬((current.drop (current.length - OVERLAP_SIZE)).isEmpty = true) := by
      simp only [List.isEmpty_iff, ← List.length_eq_zero, List.length_drop,
        OVERLAP_SIZE] at hov ⊢
      omega
    rw [if_neg hne, if_neg (show ¬(current.length ≤ OVERLAP_SIZE) from by omega)]
  · rw [if_neg hov]
    rw [if_pos List.isEmpty_nil,
      if_pos (show current.length ≤ OVERLAP_SIZE from by omega)]

/-- The accumulate step: otherwise the paragraph is appended to the buffer. -/
theorem splitLoop_acc_step (sid stitle ap apt para current : Str) (rest : List Str)
    (h : ¬(MAX_CHUNK_SIZE < current.length + para.length + 2 ∧
        MIN_CHUNK_SIZE ≤ current.length)) :
    splitLoop sid stitle ap apt (para :: rest) current
      = splitLoop sid stitle ap apt rest
          (if current.isEmpty then para else current ++ nlnl ++ para) := by
  simp only [splitLoop]
  rw [if_neg h]

theorem getLast?_replicate {n : Nat} (h : 1 ≤ n) (c : Char) :
    (List.replicate n c).getLast? = some c := by
  obtain ⟨m, rfl⟩ : ∃ m, n = m + 1 := ⟨n - 1, by omega⟩
  rw [List.replicate_succ' m c]
  exact List.getLast?_concat _

theorem strip_block {n m : Nat} (hn : 1 ≤ n) (hm : 1 ≤ m) :
    strip (List.replicate n 'a' ++ nlnl ++ List.replicate m 'a')
      = List.replicate n 'a' ++ nlnl ++ List.replicate m 'a' := by
  refine strip_eq_self_of_ends ?_ ?_
  · intro c hc
    rw [List.append_assoc, head?_replicate_append hn] at hc
    cases hc
    decide
  · intro c hc
    rw [getLast?_append_replicate hm] at hc
    cases hc
    decide

theorem drop_block {n m k : Nat} (hk : k ≤ m) :
    (List.replicate n 'a' ++ nlnl ++ List.replicate m 'a').drop (n + 2 + (m - k))
      = List.replicate k 'a' := by
  have hl : (List.replicate n 'a' ++ nlnl).length = n + 2 := by simp [nlnl]
  rw [show n + 2 + (m - k) = (List.replicate n 'a' ++ nlnl).length + (m - k) from by
    rw [hl]]
  rw [List.drop_append, List.drop_replicate]
  congr 1
  omega

theorem paraSplit_sep2 {n : Nat} (hn : 1 ≤ n) {c : Char} (hc2 : isWS c = false)
    (A : Str) (hA : ∀ d ∈ A, ¬d = '\n') (B acc : Str) :
    paraSplit (A ++ '\n' :: '\n' :: (List.replicate n c ++ B)) acc
      = (acc.reverse ++ A) :: paraSplit (List.replicate n c ++ B) [] := by
  obtain ⟨m, rfl⟩ : ∃ m, n = m + 1 := ⟨n - 1, by omega⟩
  rw [List.replicate_succ, List.cons_append]
  exact paraSplit_sep A hA hc2 _ acc

theorem paraSplit_sep3 {n : Nat} (hn : 1 ≤ n) {c : Char} (hc2 : isWS c = false)
    (A : Str) (hA : ∀ d ∈ A, ¬d = '\n') (acc : Str) :
    paraSplit (A ++ '\n' :: '\n' :: List.replicate n c) acc
      = (acc.reverse ++ A) :: paraSplit (List.replicate n c) [] := by
  have h := paraSplit_sep2 hn hc2 A hA [] acc
  rw [List.append_nil] at h
  exact h

theorem split_exContent4 :
    split_into_paragraphs exContent4
      = [List.replicate 1244 'a', List.replicate 1244 'a', List.replicate 1244 'a',
         List.replicate 1262 'a'] := by
  have hA : ∀ d ∈ List.replicate 1244 'a', ¬d = '\n' := fun d hd => by
    rw [List.eq_of_mem_replicate hd]; decide
  have hE : exContent4
      = List.replicate 1244 'a' ++ '\n' :: '\n' :: (List.replicate 1244 'a' ++
          ('\n' :: '\n' :: (List.replicate 1244 'a' ++
            ('\n' :: '\n' :: List.replicate 1262 'a')))) := by
    simp only [exContent4, nlnl, List.append_assoc, List.cons_append, List.nil_append]
  unfold split_into_paragraphs
  rw [hE]
  rw [paraSplit_sep2 (by norm_num) (by decide) _ hA _ []]
  rw [paraSplit_sep2 (by norm_num) (by decide) _ hA _ []]
  rw [paraSplit_sep3 (by norm_num) (by decide) _ hA []]
  rw [paraSplit_noNL _ [] (fun d hd => by rw [List.eq_of_mem_replicate hd]; decide)]
  have hs : ∀ n : Nat, strip (List.replicate n 'a') = List.replicate n 'a' :=
    strip_replicate (by decide)
  have hne : ∀ n : Nat, 1 ≤ n → (!List.isEmpty (List.replicate n 'a')) = true := by
    intro n hn
    cases n with
    | zero => omega
    | succ m => simp [List.replicate_succ]
  simp only [List.reverse_nil, List.nil_append, List.map_cons, List.map_nil, hs,
    List.filter_cons, List.filter_nil, hne 1244 (by norm_num), hne 1262 (by norm_num),
    if_true]

theorem splitLoop_exContent4 (sid stitle ap apt : Str) :
    splitLoop sid stitle ap apt
      [List.replicate 1244 'a', List.replicate 1244 'a', List.replicate 1244 'a',
       List.replicate 1262 'a'] []
      = ([⟨List.replicate 1244 'a', sid, stitle, ap, apt⟩,
          ⟨List.replicate 200 'a' ++ nlnl ++ List.replicate 1244 'a', sid, stitle, ap, apt⟩,
          ⟨List.replicate 200 'a' ++ nlnl ++ List.replicate 1244 'a', sid, stitle, ap, apt⟩],
         List.replicate 200 'a' ++ nlnl ++ List.replicate 1262 'a') := by
  have hBlen : (List.replicate 200 'a' ++ nlnl ++ List.replicate 1244 'a').length = 1446 := by
    simp [nlnl]
  have hstripB : strip (List.replicate 200 'a' ++ nlnl ++ List.replicate 1244 'a')
      = List.replicate 200 'a' ++ nlnl ++ List.replicate 1244 'a' :=
    strip_block (by norm_num) (by norm_num)
  have hstripR : strip (List.replicate 1244 'a') = List.replicate 1244 'a' :=
    strip_replicate (by decide) 1244
  have hdropB : (List.replicate 200 'a' ++ nlnl ++ List.replicate 1244 'a').drop
      ((List.replicate 200 'a' ++ nlnl ++ List.replicate 1244 'a').length - OVERLAP_SIZE)
      = List.replicate 200 'a' := by
    rw [hBlen, show (1446:Nat) - OVERLAP_SIZE = 200 + 2 + (1244 - 200) from by
      simp [OVERLAP_SIZE]]
    exact drop_block (by norm_num)
  have hdropR : (List.replicate 1244 'a').drop
      ((List.replicate 1244 'a').length - OVERLAP_SIZE) = List.replicate 200 'a' := by
    simp [OVERLAP_SIZE]
  rw [splitLoop_acc_step _ _ _ _ _ _ _
    (by simp [MAX_CHUNK_SIZE, MIN_CHUNK_SIZE])]
  rw [if_pos List.isEmpty_nil]
  rw [splitLoop_flush_step _ _ _ _ _ _ _ (by simp [MAX_CHUNK_SIZE])
    (by simp [MIN_CHUNK_SIZE])]
  rw [if_neg (show ¬((List.replicate 1244 'a').length ≤ OVERLAP_SIZE) from by
    simp [OVERLAP_SIZE])]
  rw [hdropR, hstripR]
  rw [splitLoop_flush_step _ _ _ _ _ _ _ (by rw [hBlen]; simp [MAX_CHUNK_SIZE])
    (by rw [hBlen]; simp [MIN_CHUNK_SIZE])]
  rw [if_neg (show ¬((List.replicate 200 'a' ++ nlnl ++ List.replicate 1244 'a').length
      ≤ OVERLAP_SIZE) from by rw [hBlen]; simp [OVERLAP_SIZE])]
  rw [hdropB, hstripB]
  rw [splitLoop_flush_step _ _ _ _ _ _ _ (by rw [hBlen]; simp [MAX_CHUNK_SIZE])
    (by rw [hBlen]; simp [MIN_CHUNK_SIZE])]
  rw [if_neg (show ¬((List.replicate 200 'a' ++ nlnl ++ List.replicate 1244 'a').length
      ≤ OVERLAP_SIZE) from by rw [hBlen]; simp [OVERLAP_SIZE])]
  rw [hdropB, hstripB]
  simp only [splitLoop]

theorem exContent4_length : exContent4.length = 5000 := by
  unfold exContent4 nlnl
  simp only [List.length_append, List.length_replicate, List.length_cons,
    List.length_nil]

theorem strip_exContent4 : strip exContent4 = exContent4 := by
  refine strip_eq_self_of_ends ?_ ?_
  · intro c hc
    simp only [exContent4, List.append_assoc] at hc
    rw [head?_replicate_append (by norm_num)] at hc
    cases hc
    decide
  · intro c hc
    unfold exContent4 at hc
    rw [getLast?_append_replicate (by norm_num)] at hc
    cases hc
    decide

theorem create_exContent4_eval (sid stitle ap apt : Str) :
    create_chunks_from_section exContent4 sid stitle ap apt
      = [⟨List.replicate 1244 'a', sid, stitle, ap, apt⟩,
         ⟨List.replicate 200 'a' ++ nlnl ++ List.replicate 1244 'a', sid, stitle, ap, apt⟩,
         ⟨List.replicate 200 'a' ++ nlnl ++ List.replicate 1244 'a', sid, stitle, ap, apt⟩,
         ⟨List.replicate 200 'a' ++ nlnl ++ List.replicate 1262 'a', sid, stitle, ap, apt⟩] := by
  have hstripB4 : strip (List.replicate 200 'a' ++ nlnl ++ List.replicate 1262 'a')
      = List.replicate 200 'a' ++ nlnl ++ List.replicate 1262 'a' :=
    strip_block (by norm_num) (by norm_num)
  unfold create_chunks_from_section
  rw [is_placeholder_content_false_of_long
    (by rw [strip_exContent4, exContent4_length]; norm_num)]
  rw [if_neg (by simp)]
  rw [if_neg (show ¬(exContent4.length ≤ MAX_CHUNK_SIZE) from by
    rw [exContent4_length]; simp [MAX_CHUNK_SIZE])]
  rw [split_exContent4]
  simp only []
  rw [splitLoop_exContent4]
  simp only []
  rw [if_pos ⟨by rw [hstripB4]; simp [List.isEmpty_iff, ← List.length_eq_zero, nlnl],
    by rw [hstripB4]; simp [nlnl, MIN_CHUNK_SIZE]⟩]
  rw [hstripB4]
  rfl

/-- C4 (amended): the flush step works exactly as claimed — when the next
paragraph would push the buffer past MAX_CHUNK_SIZE and the buffer meets
MIN_CHUNK_SIZE, the stripped buffer is flushed and the new buffer is seeded
with the trailing OVERLAP_SIZE characters of the old one followed by the
paragraph.  A 5000-character section made of four paragraphs yields 4 ≥ 3
chunks, each successor starting with the 200 trailing characters of its
predecessor; but the consequence does not hold for *every* 5000-character
section: a single-paragraph section of 5000 characters yields one chunk
(see the counterexample). -/
theorem c4_flush_overlap :
    (∀ (sid stitle ap apt para current : Str) (rest : List Str),
      MAX_CHUNK_SIZE < current.length + para.length + 2 →
      MIN_CHUNK_SIZE ≤ current.length →
      splitLoop sid stitle ap apt (para :: rest) current
        = (⟨strip current, sid, stitle, ap, apt⟩ ::
            (splitLoop sid stitle ap apt rest
              (if current.length ≤ OVERLAP_SIZE then para
               else current.drop (current.length - OVERLAP_SIZE) ++ nlnl ++ para)).1,
           (splitLoop sid stitle ap apt rest
              (if current.length ≤ OVERLAP_SIZE then para
               else current.drop (current.length - OVERLAP_SIZE) ++ nlnl ++ para)).2))
    ∧ (∀ sid stitle ap apt : Str,
        exContent4.length = 5000
        ∧ 3 ≤ (create_chunks_from_section exContent4 sid stitle ap apt).length
        ∧ (create_chunks_from_section exContent4 sid stitle ap apt).map (fun ch => ch.text)
            = [List.replicate 1244 'a',
               List.replicate 200 'a' ++ nlnl ++ List.replicate 1244 'a',
               List.replicate 200 'a' ++ nlnl ++ List.replicate 1244 'a',
               List.replicate 200 'a' ++ nlnl ++ List.replicate 1262 'a']
        ∧ (List.replicate 200 'a' ++ nlnl ++ List.replicate 1244 'a').take OVERLAP_SIZE
            = (List.replicate 1244 'a').drop
                ((List.replicate 1244 'a').length - OVERLAP_SIZE)
        ∧ (List.replicate 200 'a' ++ nlnl ++ List.replicate 1262 'a').take OVERLAP_SIZE
            = (List.replicate 200 'a' ++ nlnl ++ List.replicate 1244 'a').drop
                ((List.replicate 200 'a' ++ nlnl ++ List.replicate 1244 'a').length
                  - OVERLAP_SIZE)) := by
  constructor
  · exact fun sid stitle ap apt para current rest h1 h2 =>
      splitLoop_flush_step sid stitle ap apt para current rest h1 h2
  · intro sid stitle ap apt
    have htake : ∀ X : Str, (List.replicate 200 'a' ++ nlnl ++ X).take OVERLAP_SIZE
        = List.replicate 200 'a' := by
      intro X
      simp only [OVERLAP_SIZE]
      rw [List.take_append_of_le_length (by simp [nlnl]),
        List.take_append_of_le_length (by simp), List.take_replicate]
      simp
    have hdropR : (List.replicate 1244 'a').drop
        ((List.replicate 1244 'a').length - OVERLAP_SIZE) = List.replicate 200 'a' := by
      simp [OVERLAP_SIZE]
    have hBlen : (List.replicate 200 'a' ++ nlnl ++ List.replicate 1244 'a').length
        = 1446 := by simp [nlnl]
    have hdropB : (List.replicate 200 'a' ++ nlnl ++ List.replicate 1244 'a').drop
        ((List.replicate 200 'a' ++ nlnl ++ List.replicate 1244 'a').length - OVERLAP_SIZE)
        = List.replicate 200 'a' := by
      rw [hBlen, show (1446:Nat) - OVERLAP_SIZE = 200 + 2 + (1244 - 200) from by
        simp [OVERLAP_SIZE]]
      exact drop_block (by norm_num)
    refine ⟨exContent4_length, ?_, ?_, ?_, ?_⟩
    · rw [create_exContent4_eval]
      simp
    · rw [create_exContent4_eval]
      simp
    · rw [htake, hdropR]
    · rw [htake, hdropB]

/-- C4 witness: the flush step evaluated on a 1900-character buffer and a
150-character paragraph. -/
theorem c4_witness :
    splitLoop "s".toList "t".toList "A".toList "T".toList [List.replicate 150 'b']
        (List.replicate 1900 'a')
      = (⟨strip (List.replicate 1900 'a'), "s".toList, "t".toList, "A".toList,
            "T".toList⟩ ::
          (splitLoop "s".toList "t".toList "A".toList "T".toList []
            (if (List.replicate 1900 'a').length ≤ OVERLAP_SIZE then List.replicate 150 'b'
             else (List.replicate 1900 'a').drop ((List.replicate 1900 'a').length
               - OVERLAP_SIZE) ++ nlnl ++ List.replicate 150 'b')).1,
         (splitLoop "s".toList "t".toList "A".toList "T".toList []
            (if (List.replicate 1900 'a').length ≤ OVERLAP_SIZE then List.replicate 150 'b'
             else (List.replicate 1900 'a').drop ((List.replicate 1900 'a').length
               - OVERLAP_SIZE) ++ nlnl ++ List.replicate 150 'b')).2) :=
  c4_flush_overlap.1 _ _ _ _ _ _ _
    (by simp [MAX_CHUNK_SIZE]) (by simp [MIN_CHUNK_SIZE])

/-- C4 counterexample: a 5000-character section with no paragraph boundary
yields exactly one chunk, not at least three. -/
theorem c4_counterexample :
    exContent5.length = 5000
    ∧ (create_chunks_from_section exContent5 "s".toList "t".toList "A".toList
        "T".toList).length = 1
    ∧ ¬(3 ≤ (create_chunks_from_section exContent5 "s".toList "t".toList "A".toList
        "T".toList).length) := by
  have h : create_chunks_from_section exContent5 "s".toList "t".toList "A".toList
      "T".toList
      = [⟨exContent5, "s".toList, "t".toList, "A".toList, "T".toList⟩] := by
    unfold exContent5
    exact create_replicate_big (by decide) (by decide) (by simp [MAX_CHUNK_SIZE]) _ _ _ _
  refine ⟨by unfold exContent5; rw [List.length_replicate], by rw [h]; rfl,
    by rw [h]; simp⟩

/-!
## Paragraph coverage of the split path
-/

theorem strip_fixed_head {p : Str} (hp : strip p = p) :
    ∀ c, p.head? = some c → isWS c = false :=
  fun c hc => strip_head_not_ws (by rw [hp]; exact hc)

theorem strip_fixed_last {p : Str} (hp : strip p = p) :
    ∀ c, p.getLast? = some c → isWS c = false :=
  fun c hc => strip_getLast_not_ws (by rw [hp]; exact hc)

theorem infix_flatMap_of_mem {cs : List Chunk} {ch : Chunk} (h : ch ∈ cs) :
    ch.text <:+: cs.flatMap (fun c => c.text) := by
  induction cs with
  | nil => simp at h
  | cons c cs' ih =>
    rcases List.mem_cons.mp h with rfl | h'
    · simp only [List.flatMap_cons]
      exact (List.prefix_append _ _).isInfix
    · simp only [List.flatMap_cons]
      exact (ih h').trans (List.suffix_append _ _).isInfix

theorem appendToLast_mem_rev :
    ∀ (cs : List Chunk) (t : Str) (ch : Chunk), ch ∈ cs →
      ∃ chN ∈ appendToLast cs t, ch.text <+: chN.text := by
  intro cs
  induction cs with
  | nil =>
    intro t ch h
    simp at h
  | cons c cs' ih =>
    intro t ch h
    cases cs' with
    | nil =>
      rw [List.mem_singleton.mp h]
      exact ⟨{ c with text := c.text ++ t }, by simp [appendToLast],
        List.prefix_append _ _⟩
    | cons c2 cs2 =>
      rcases List.mem_cons.mp h with rfl | h'
      · exact ⟨ch, by simp [appendToLast], List.prefix_refl _⟩
      · obtain ⟨chN, hm, hpre⟩ := ih t ch h'
        exact ⟨chN, by simp [appendToLast, hm], hpre⟩

theorem appendToLast_last :
    ∀ (cs : List Chunk) (t : Str), cs ≠ [] →
      ∃ c ∈ cs, { c with text := c.text ++ t } ∈ appendToLast cs t := by
  intro cs
  induction cs with
  | nil =>
    intro t h
    exact absurd rfl h
  | cons c cs' ih =>
    intro t _
    cases cs' with
    | nil => exact ⟨c, by simp, by simp [appendToLast]⟩
    | cons c2 cs2 =>
      obtain ⟨d, hd, hm⟩ := ih t (by simp)
      exact ⟨d, by simp [hd], by simp [appendToLast, hm]⟩

/-- Once a paragraph has entered the buffer, it survives — inside a flushed
chunk or inside the final buffer. -/
theorem splitLoop_para_infix (sid stitle ap apt : Str) :
    ∀ (paras : List Str) (current : Str) (p : Str),
      p ≠ [] → strip p = p →
      (∀ q ∈ paras, q ≠ [] ∧ strip q = q) →
      (p <:+: current ∨ p ∈ paras) →
      (∃ ch ∈ (splitLoop sid stitle ap apt paras current).1, p <:+: ch.text)
      ∨ p <:+: (splitLoop sid stitle ap apt paras current).2 := by
  intro paras
  induction paras with
  | nil =>
    intro current p hpne hpstrip _ hin
    rcases hin with h | h
    · exact Or.inr (by simpa [splitLoop] using h)
    · simp at h
  | cons para rest ih =>
    intro current p hpne hpstrip hq hin
    have hrest : ∀ q ∈ rest, q ≠ [] ∧ strip q = q := fun q h => hq q (by simp [h])
    by_cases hcond : MAX_CHUNK_SIZE < current.length + para.length + 2 ∧
        MIN_CHUNK_SIZE ≤ current.length
    · rw [splitLoop_flush_step sid stitle ap apt para current rest hcond.1 hcond.2]
      rcases hin with h | h
      · exact Or.inl ⟨⟨strip current, sid, stitle, ap, apt⟩, by simp,
          infix_strip (strip_fixed_head hpstrip) (strip_fixed_last hpstrip) h⟩
      · have hbuf : p <:+: (if current.length ≤ OVERLAP_SIZE then para
            else current.drop (current.length - OVERLAP_SIZE) ++ nlnl ++ para)
            ∨ p ∈ rest := by
          rcases List.mem_cons.mp h with rfl | h'
          · refine Or.inl ?_
            split
            · exact List.infix_refl p
            · exact (List.suffix_append _ _).isInfix
          · exact Or.inr h'
        rcases ih _ p hpne hpstrip hrest hbuf with ⟨ch, hm, hi⟩ | hi
        · exact Or.inl ⟨ch, List.mem_cons_of_mem _ hm, hi⟩
        · exact Or.inr hi
    · rw [splitLoop_acc_step sid stitle ap apt para current rest hcond]
      have hbuf : p <:+: (if current.isEmpty then para else current ++ nlnl ++ para)
          ∨ p ∈ rest := by
        rcases hin with h | h
        · refine Or.inl ?_
          split
          · rename_i hemp
            exfalso
            rw [List.isEmpty_iff.mp hemp] at h
            exact hpne (List.infix_nil.mp h)
          · exact h.trans ((List.prefix_append current nlnl).trans
              (List.prefix_append (current ++ nlnl) para)).isInfix
        · rcases List.mem_cons.mp h with rfl | h'
          · refine Or.inl ?_
            split
            · exact List.infix_refl p
            · exact (List.suffix_append _ _).isInfix
          · exact Or.inr h'
      exact ih _ p hpne hpstrip hrest hbuf

/-- C3 (amended): on the split path, whenever the chunker emits at least one
chunk for a section, every paragraph of the section (as produced by
`split_into_paragraphs`, i.e. with surrounding whitespace trimmed) occurs as
a contiguous substring of the concatenated chunk texts.  Whitespace between
paragraphs is normalised rather than preserved, and a section whose
accumulated text never reaches MIN_CHUNK_SIZE yields no chunks at all, losing
its text (see the counterexample). -/
theorem c3_paragraph_coverage (content sid stitle ap apt : Str)
    (hlen : MAX_CHUNK_SIZE < content.length)
    (hout : create_chunks_from_section content sid stitle ap apt ≠ []) :
    ∀ p ∈ split_into_paragraphs content,
      p <:+: (create_chunks_from_section content sid stitle ap apt).flatMap
        (fun ch => ch.text) := by
  intro p hp
  obtain ⟨hpne, hpstrip⟩ := split_paragraph_props hp
  have hinv := splitLoop_para_infix sid stitle ap apt (split_into_paragraphs content)
    [] p hpne hpstrip (fun q hq => split_paragraph_props hq) (Or.inr hp)
  unfold create_chunks_from_section at hout ⊢
  by_cases hph : is_placeholder_content content = true
  · rw [if_pos hph] at hout
    exact absurd rfl hout
  · rw [if_neg hph] at hout ⊢
    rw [if_neg (show ¬(content.length ≤ MAX_CHUNK_SIZE) from by omega)] at hout ⊢
    simp only [] at hout ⊢
    set r := splitLoop sid stitle ap apt (split_into_paragraphs content) [] with hr
    by_cases hg1 : ¬(strip r.2).isEmpty = true ∧ MIN_CHUNK_SIZE ≤ (strip r.2).length
    · rw [if_pos hg1] at hout ⊢
      rcases hinv with ⟨ch, hm, hi⟩ | hi
      · exact List.IsInfix.trans hi (infix_flatMap_of_mem (List.mem_append_left _ hm))
      · have hmem : (⟨strip r.2, sid, stitle, ap, apt⟩ : Chunk)
            ∈ r.1 ++ [⟨strip r.2, sid, stitle, ap, apt⟩] :=
          List.mem_append_right _ (List.mem_singleton_self _)
        exact List.IsInfix.trans
          (infix_strip (strip_fixed_head hpstrip) (strip_fixed_last hpstrip) hi)
          (infix_flatMap_of_mem hmem)
    · rw [if_neg hg1] at hout ⊢
      by_cases hg2 : ¬(strip r.2).isEmpty = true ∧ ¬(r.1.isEmpty = true)
      · rw [if_pos hg2] at hout ⊢
        rcases hinv with ⟨ch, hm, hi⟩ | hi
        · obtain ⟨chN, hmN, hpre⟩ := appendToLast_mem_rev r.1 (nlnl ++ strip r.2) ch hm
          exact List.IsInfix.trans (List.IsInfix.trans hi hpre.isInfix)
            (infix_flatMap_of_mem hmN)
        · obtain ⟨c, _, hmN⟩ := appendToLast_last r.1 (nlnl ++ strip r.2)
            (by simpa [List.isEmpty_iff] using hg2.2)
          have hsfx : p <:+: c.text ++ (nlnl ++ strip r.2) := by
            refine List.IsInfix.trans ?_ (List.suffix_append _ _).isInfix
            refine List.IsInfix.trans ?_ (List.suffix_append _ _).isInfix
            exact infix_strip (strip_fixed_head hpstrip) (strip_fixed_last hpstrip) hi
          exact List.IsInfix.trans hsfx (infix_flatMap_of_mem hmN)
      · rw [if_neg hg2] at hout ⊢
        rcases hinv with ⟨ch, hm, hi⟩ | hi
        · exact List.IsInfix.trans hi (infix_flatMap_of_mem hm)
        · exfalso
          by_cases hse : (strip r.2).isEmpty = true
          · have hpe : p <:+: strip r.2 :=
              infix_strip (strip_fixed_head hpstrip) (strip_fixed_last hpstrip) hi
            rw [List.isEmpty_iff.mp hse] at hpe
            exact hpne (List.infix_nil.mp hpe)
          · have h1 : r.1.isEmpty = true := by
              by_contra hne
              exact hg2 ⟨hse, hne⟩
            rw [List.isEmpty_iff.mp h1] at hout
            exact hout rfl

/-- C3 witness: on corpus-4 content the first paragraph occurs inside the
concatenated chunk texts. -/
theorem c3_witness :
    List.replicate 1244 'a'
      <:+: (create_chunks_from_section exContent4 "s".toList "t".toList "A".toList
        "T".toList).flatMap (fun ch => ch.text) :=
  c3_paragraph_coverage exContent4 _ _ _ _
    (by rw [exContent4_length]; simp [MAX_CHUNK_SIZE])
    (by rw [create_exContent4_eval]; exact List.cons_ne_nil _ _)
    _ (by rw [split_exContent4]; exact List.mem_cons_self _ _)

/-- C3 counterexample: a 2102-character non-placeholder section (2100 blanks
then `hi`) yields zero chunks, so its text is not contained in the
concatenation of its chunks — information is silently dropped with no
placeholder filtering and no overlap involved. -/
theorem c3_counterexample :
    create_chunks_from_section exContent3 "s".toList "t".toList "A".toList "T".toList = []
    ∧ is_placeholder_content exContent3 = false
    ∧ exContent3 ≠ []
    ∧ ¬(exContent3 <:+: (create_chunks_from_section exContent3 "s".toList "t".toList
        "A".toList "T".toList).flatMap (fun ch => ch.text)) := by
  have hlow : lower exContent3 = exContent3 := by
    unfold lower exContent3
    rw [List.map_append, List.map_replicate,
      show Char.toLower ' ' = ' ' from by decide,
      show "hi".toList.map Char.toLower = "hi".toList from by decide]
  have hstrip : strip exContent3 = "hi".toList := by
    unfold strip exContent3
    rw [List.dropWhile_append_of_pos
      (by intro a ha; rw [List.eq_of_mem_replicate ha]; decide)]
    decide
  have hph : is_placeholder_content exContent3 = false := by
    unfold is_placeholder_content
    rw [hlow, hstrip]
    decide
  have hlen3 : exContent3.length = 2102 := by
    unfold exContent3
    simp only [List.length_append, List.length_replicate]
    decide
  have hnoNL : ∀ c ∈ exContent3, ¬c = '\n' := by
    intro c hc
    unfold exContent3 at hc
    rcases List.mem_append.mp hc with h | h
    · rw [List.eq_of_mem_replicate h]
      decide
    · simp at h
      rcases h with rfl | rfl <;> decide
  have hsplit : split_into_paragraphs exContent3 = ["hi".toList] := by
    unfold split_into_paragraphs
    rw [paraSplit_noNL _ [] hnoNL]
    simp only [List.reverse_nil, List.nil_append, List.map_cons, List.map_nil, hstrip]
    decide
  have hcreate : create_chunks_from_section exContent3 "s".toList "t".toList "A".toList
      "T".toList = [] := by
    unfold create_chunks_from_section
    rw [hph]
    rw [if_neg (by simp)]
    rw [if_neg (show ¬(exContent3.length ≤ MAX_CHUNK_SIZE) from by
      rw [hlen3]; simp [MAX_CHUNK_SIZE])]
    rw [hsplit]
    simp only []
    rw [splitLoop_acc_step _ _ _ _ _ _ _ (by decide)]
    rw [if_pos List.isEmpty_nil]
    simp only [splitLoop]
    rw [if_neg (by decide), if_neg (by decide)]
  refine ⟨hcreate, hph, ?_, ?_⟩
  · intro hC
    have h0 : exContent3.length = 0 := by rw [hC]; rfl
    rw [hlen3] at h0
    cases h0
  · rw [hcreate]
    simp only [List.flatMap_nil]
    intro hinf
    have hC := List.infix_nil.mp hinf
    have h0 : exContent3.length = 0 := by rw [hC]; rfl
    rw [hlen3] at h0
    cases h0

/-!
## Lexicographic file order: transitivity, totality, and sort determinism
-/

theorem strLe_trans : ∀ a b c : Str, strLe a b = true → strLe b c = true →
    strLe a c = true
  | [], _, _, _, _ => rfl
  | x :: s, [], _, h, _ => by simp [strLe] at h
  | x :: s, y :: t, [], _, h => by simp [strLe] at h
  | x :: s, y :: t, z :: u, h1, h2 => by
    simp only [strLe] at h1 h2 ⊢
    by_cases hxy : x = y
    · subst hxy
      rw [if_pos rfl] at h1
      by_cases hyz : x = z
      · subst hyz
        rw [if_pos rfl] at h2 ⊢
        exact strLe_trans s t u h1 h2
      · rw [if_neg hyz] at h2 ⊢
        exact h2
    · rw [if_neg hxy] at h1
      by_cases hyz : y = z
      · subst hyz
        rw [if_neg hxy]
        exact h1
      · rw [if_neg hyz] at h2
        simp only [decide_eq_true_eq] at h1 h2
        have hxz : x < z := lt_trans h1 h2
        rw [if_neg (show ¬(x = z) from fun h => absurd (h ▸ hxz) (lt_irrefl z))]
        simp [hxz]

theorem strLe_total : ∀ a b : Str, (strLe a b || strLe b a) = true
  | [], _ => by simp [strLe]
  | _ :: _, [] => by simp [strLe]
  | x :: s, y :: t => by
    simp only [strLe]
    by_cases hxy : x = y
    · subst hxy
      rw [if_pos rfl, if_pos rfl]
      exact strLe_total s t
    · rw [if_neg hxy, if_neg (fun h => hxy h.symm)]
      rcases lt_or_gt_of_ne hxy with h | h
      · simp [h]
      · simp [h]

theorem strLe_ne_lt : ∀ a b : Str, strLe a b = true → a ≠ b → strLt a b = true
  | [], [], _, hne => absurd rfl hne
  | [], _ :: _, _, _ => rfl
  | _ :: _, [], h, _ => by simp [strLe] at h
  | x :: s, y :: t, h, hne => by
    simp only [strLe] at h
    simp only [strLt]
    by_cases hxy : x = y
    · subst hxy
      rw [if_pos rfl] at h ⊢
      refine strLe_ne_lt s t h ?_
      intro hst
      exact hne (by rw [hst])
    · rw [if_neg hxy] at h ⊢
      exact h

theorem strLt_asymm : ∀ a b : Str, strLt a b = true → strLt b a = true → False
  | [], [], h, _ => by simp [strLt] at h
  | [], _ :: _, _, h => by simp [strLt] at h
  | _ :: _, [], h, _ => by simp [strLt] at h
  | x :: s, y :: t, h1, h2 => by
    simp only [strLt] at h1 h2
    by_cases hxy : x = y
    · subst hxy
      rw [if_pos rfl] at h1 h2
      exact strLt_asymm s t h1 h2
    · rw [if_neg hxy] at h1
      rw [if_neg (fun h => hxy h.symm)] at h2
      simp only [decide_eq_true_eq] at h1 h2
      exact absurd h1 (lt_asymm h2)

theorem sortFiles_sorted (files : List InputFile) :
    List.Pairwise (fun f g => strLe f.name g.name = true) (sortFiles files) :=
  List.sorted_mergeSort
    (fun a b c hab hbc => strLe_trans a.name b.name c.name hab hbc)
    (fun a b => strLe_total a.name b.name) files

theorem sortFiles_perm (files : List InputFile) : (sortFiles files).Perm files :=
  List.mergeSort_perm files _

/-- Two sorted lists of files with set-equal contents and duplicate-free
names are equal. -/
theorem files_sorted_unique {l₁ l₂ : List InputFile} (hperm : l₁.Perm l₂)
    (hs₁ : List.Pairwise (fun f g => strLe f.name g.name = true) l₁)
    (hs₂ : List.Pairwise (fun f g => strLe f.name g.name = true) l₂)
    (hnd : (l₁.map (fun f => f.name)).Nodup) : l₁ = l₂ := by
  have hnd₂ : (l₂.map (fun f => f.name)).Nodup := (hperm.map _).nodup_iff.mp hnd
  have key : ∀ {l : List InputFile},
      List.Pairwise (fun f g => strLe f.name g.name = true) l →
      (l.map (fun f => f.name)).Nodup →
      List.Pairwise (fun f g => strLt f.name g.name = true) l := by
    intro l hle hnd'
    have hne : l.Pairwise (fun a b => a.name ≠ b.name) := List.pairwise_map.mp hnd'
    exact (hle.and hne).imp (fun h => strLe_ne_lt _ _ h.1 h.2)
  haveI : IsAntisymm InputFile (fun f g => strLt f.name g.name = true) :=
    ⟨fun a b h h' => (strLt_asymm _ _ h h').elim⟩
  exact List.eq_of_perm_of_sorted hperm (key hs₁ hnd) (key hs₂ hnd₂)

/-- C8: the transformation is deterministic and idempotent — it is a pure
function of its input (rerunning yields the same output), the appendix
processing order is fixed by sorting the file names, and the output is
invariant under any reordering of the input directory listing (given
distinct file names, as in a real directory). -/
theorem c8_deterministic :
    (∀ fs : List InputFile, pipeline fs = pipeline fs)
    ∧ (∀ fs : List InputFile,
        List.Pairwise (fun f g => strLe f.name g.name = true) (sortFiles fs))
    ∧ (∀ fs₁ fs₂ : List InputFile, fs₁.Perm fs₂ →
        (fs₁.map (fun f => f.name)).Nodup → pipeline fs₁ = pipeline fs₂) := by
  refine ⟨fun fs => rfl, sortFiles_sorted, ?_⟩
  intro fs₁ fs₂ hperm hnodup
  have hsort : sortFiles fs₁ = sortFiles fs₂ :=
    files_sorted_unique
      ((sortFiles_perm fs₁).trans (hperm.trans (sortFiles_perm fs₂).symm))
      (sortFiles_sorted fs₁) (sortFiles_sorted fs₂)
      (((sortFiles_perm fs₁).map _).nodup_iff.mpr hnodup)
  unfold pipeline
  rw [hsort]

/-- C8 witness: the two orderings of a two-file corpus give the same
output. -/
theorem c8_witness : pipeline [exFileA, exFileB] = pipeline [exFileB, exFileA] :=
  c8_deterministic.2.2 _ _ (List.Perm.swap exFileB exFileA []) (by decide)

/-!
## Output ordering: provenance labels and sequential identifiers
-/

theorem splitLoop_label (sid stitle ap apt : Str) :
    ∀ (paras : List Str) (current : Str),
      ∀ ch ∈ (splitLoop sid stitle ap apt paras current).1,
        label ch = (ap, apt, sid, stitle) := by
  intro paras
  induction paras with
  | nil =>
    intro current ch hch
    simp [splitLoop] at hch
  | cons para rest ih =>
    intro current ch hch
    by_cases hcond : MAX_CHUNK_SIZE < current.length + para.length + 2 ∧
        MIN_CHUNK_SIZE ≤ current.length
    · rw [splitLoop_flush_step sid stitle ap apt para current rest hcond.1 hcond.2] at hch
      rcases List.mem_cons.mp hch with rfl | h'
      · rfl
      · exact ih _ ch h'
    · rw [splitLoop_acc_step sid stitle ap apt para current rest hcond] at hch
      exact ih _ ch hch

theorem create_chunks_label (content sid stitle ap apt : Str) :
    ∀ ch ∈ create_chunks_from_section content sid stitle ap apt,
      label ch = (ap, apt, sid, stitle) := by
  intro ch hch
  unfold create_chunks_from_section at hch
  by_cases hph : is_placeholder_content content = true
  · rw [if_pos hph] at hch
    simp at hch
  · rw [if_neg hph] at hch
    by_cases hmax : content.length ≤ MAX_CHUNK_SIZE
    · rw [if_pos hmax] at hch
      by_cases hmin : MIN_CHUNK_SIZE ≤ content.length
      · rw [if_pos hmin] at hch
        rw [List.mem_singleton.mp hch]
        rfl
      · rw [if_neg hmin] at hch
        simp at hch
    · rw [if_neg hmax] at hch
      simp only [] at hch
      by_cases hg1 : ¬(strip (splitLoop sid stitle ap apt (split_into_paragraphs content)
            []).2).isEmpty = true ∧
          MIN_CHUNK_SIZE ≤ (strip (splitLoop sid stitle ap apt
            (split_into_paragraphs content) []).2).length
      · rw [if_pos hg1] at hch
        rcases List.mem_append.mp hch with h | h
        · exact splitLoop_label sid stitle ap apt _ _ ch h
        · rw [List.mem_singleton.mp h]
          rfl
      · rw [if_neg hg1] at hch
        by_cases hg2 : ¬(strip (splitLoop sid stitle ap apt
              (split_into_paragraphs content) []).2).isEmpty = true ∧
            ¬((splitLoop sid stitle ap apt (split_into_paragraphs content)
              []).1.isEmpty = true)
        · rw [if_pos hg2] at hch
          rcases appendToLast_mem _ _ _ hch with h | ⟨c, hc, rfl⟩
          · exact splitLoop_label sid stitle ap apt _ _ ch h
          · exact splitLoop_label sid stitle ap apt _ _ c hc
        · rw [if_neg hg2] at hch
          exact splitLoop_label sid stitle ap apt _ _ ch hch

theorem map_eq_replicate_of_forall {α β : Type} {l : List α} {f : α → β} {b : β}
    (h : ∀ x ∈ l, f x = b) : l.map f = List.replicate l.length b := by
  induction l with
  | nil => rfl
  | cons x xs ih =>
    simp only [List.map_cons, List.length_cons, List.replicate_succ]
    rw [h x (by simp), ih (fun y hy => h y (by simp [hy]))]

theorem sections_blocks (ss : List SectionRec) (ap apt : Str) :
    ∃ ns : List Nat, ns.length = ss.length ∧
      ((ss.flatMap fun s => create_chunks_from_section s.content s.id s.title ap apt).map
          label)
        = (List.zipWith List.replicate ns
            (ss.map fun s => (ap, apt, s.id, s.title))).flatten := by
  induction ss with
  | nil => exact ⟨[], rfl, rfl⟩
  | cons s ss' ih =>
    obtain ⟨ns, hlen, heq⟩ := ih
    refine ⟨(create_chunks_from_section s.content s.id s.title ap apt).length :: ns,
      by simp [hlen], ?_⟩
    simp only [List.flatMap_cons, List.map_append, List.map_cons,
      List.zipWith_cons_cons, List.flatten_cons]
    rw [heq, map_eq_replicate_of_forall (create_chunks_label s.content s.id s.title ap apt)]

theorem files_blocks (fl : List InputFile) :
    ∃ ns : List Nat,
      ns.length = (fl.flatMap fun f => f.data.sections.map fun s =>
        (f.data.letter, f.data.title, s.id, s.title)).length ∧
      ((fl.flatMap fun f => process_appendix f.data).map label)
        = (List.zipWith List.replicate ns
            (fl.flatMap fun f => f.data.sections.map fun s =>
              (f.data.letter, f.data.title, s.id, s.title))).flatten := by
  induction fl with
  | nil => exact ⟨[], rfl, rfl⟩
  | cons f fl' ih =>
    obtain ⟨ns₂, hlen₂, heq₂⟩ := ih
    obtain ⟨ns₁, hlen₁, heq₁⟩ := sections_blocks f.data.sections f.data.letter f.data.title
    refine ⟨ns₁ ++ ns₂, by simp [hlen₁, hlen₂], ?_⟩
    simp only [List.flatMap_cons, List.map_append, process_appendix]
    simp only [process_appendix] at heq₂
    rw [heq₂, heq₁,
      List.zipWith_append _ _ _ _ _ (by rw [hlen₁]; simp),
      List.flatten_append]

theorem mergeLoop_label_sublist :
    ∀ (l : List Chunk) (c : Chunk),
      ((mergeLoop (some c) l).map label).Sublist ((c :: l).map label) := by
  intro l
  induction l with
  | nil =>
    intro c
    simp only [mergeLoop]
    split
    · exact List.Sublist.refl _
    · exact List.nil_sublist _
  | cons x rest ih =>
    intro c
    simp only [mergeLoop]
    split
    · refine (ih _).trans ?_
      simp only [List.map_cons]
      exact List.Sublist.cons₂ _ (List.sublist_cons_self _ _)
    · split
      · simp only [List.map_cons]
        exact List.Sublist.cons₂ _ (ih x)
      · refine (ih x).trans ?_
        simp only [List.map_cons]
        exact List.sublist_cons_self _ _

theorem merge_label_sublist (l : List Chunk) :
    ((merge_small_chunks l).map label).Sublist (l.map label) := by
  cases l with
  | nil => simp [merge_small_chunks]
  | cons c rest =>
    unfold merge_small_chunks
    rw [if_neg (by simp)]
    have h : mergeLoop none (c :: rest) = mergeLoop (some c) rest := by
      simp only [mergeLoop]
    rw [h]
    exact mergeLoop_label_sublist rest c

theorem sublist_blocks {β : Type} :
    ∀ (L : List β) (ns : List Nat) (l : List β),
      ns.length = L.length →
      l.Sublist (List.zipWith List.replicate ns L).flatten →
      ∃ ms : List Nat, ms.length = L.length ∧
        l = (List.zipWith List.replicate ms L).flatten := by
  intro L
  induction L with
  | nil =>
    intro ns l _ hsub
    refine ⟨[], rfl, ?_⟩
    simpa using hsub
  | cons a L' ih =>
    intro ns l hlen hsub
    cases ns with
    | nil => simp at hlen
    | cons n ns' =>
      simp only [List.zipWith_cons_cons, List.flatten_cons] at hsub
      obtain ⟨l₁, l₂, rfl, h₁, h₂⟩ := List.sublist_append_iff.mp hsub
      obtain ⟨m, _, rfl⟩ := List.sublist_replicate_iff.mp h₁
      obtain ⟨ms', hms, rfl⟩ := ih ns' l₂ (by simpa using hlen) h₂
      exact ⟨m :: ms', by simp [hms], by
        simp only [List.zipWith_cons_cons, List.flatten_cons]⟩

theorem addIdsFrom_length : ∀ (l : List Chunk) (i : Nat),
    (addIdsFrom i l).length = l.length := by
  intro l
  induction l with
  | nil => intro i; rfl
  | cons c cs ih =>
    intro i
    simp only [addIdsFrom, List.length_cons, ih]

theorem addIdsFrom_ids : ∀ (l : List Chunk) (i : Nat),
    (addIdsFrom i l).map (fun c => c.id) = (List.range' i l.length).map chunkId := by
  intro l
  induction l with
  | nil => intro i; rfl
  | cons c cs ih =>
    intro i
    simp only [addIdsFrom, List.map_cons, List.length_cons, List.range'_succ, ih]

theorem addIdsFrom_labels : ∀ (l : List Chunk) (i : Nat),
    (addIdsFrom i l).map labelO = l.map label := by
  intro l
  induction l with
  | nil => intro i; rfl
  | cons c cs ih =>
    intro i
    simp only [addIdsFrom, List.map_cons, ih]
    rfl

theorem digitVal_digitChar : ∀ d : Nat, d < 10 → digitVal (digitChar d) = d := by
  intro d hd
  interval_cases d <;> decide

theorem decodeDigits_append_digit (xs : Str) (c : Char) :
    decodeDigits (xs ++ [c]) = decodeDigits xs * 10 + digitVal c := by
  unfold decodeDigits
  rw [List.foldl_append]
  simp only [List.foldl_cons, List.foldl_nil]

theorem decode_natDigits : ∀ n : Nat, decodeDigits (natDigits n) = n := by
  intro n
  induction n using Nat.strong_induction_on with
  | _ n ih =>
    rw [natDigits.eq_def]
    split
    · rename_i h
      unfold decodeDigits
      simp only [List.foldl_cons, List.foldl_nil]
      rw [Nat.zero_mul, Nat.zero_add, digitVal_digitChar n h]
    · rename_i h
      rw [decodeDigits_append_digit,
        ih (n / 10) (Nat.div_lt_self (by omega) (by omega)),
        digitVal_digitChar (n % 10) (Nat.mod_lt _ (by omega))]
      omega

theorem chunkId_injective : Function.Injective chunkId := by
  intro a b h
  unfold chunkId at h
  have h2 := List.append_cancel_left h
  have ha := decode_natDigits a
  rw [h2, decode_natDigits b] at ha
  exact ha.symm

/-- C7: output chunk identifiers are `chunk_<index>` following final output
order exactly (so they are strictly increasing in output position), they are
pairwise distinct, appendix files are processed in ascending file-name
order, and the final label sequence (appendix, appendix title, section id,
section title) is a concatenation of per-section blocks following the
canonical order: appendices sorted by file name, sections in input order —
so chunks of one section are contiguous and in order. -/
theorem c7_output_order (files : List InputFile) :
    (pipeline files).map (fun c => c.id)
        = (List.range (pipeline files).length).map chunkId
    ∧ ((pipeline files).map (fun c => c.id)).Nodup
    ∧ List.Pairwise (fun f g => strLe f.name g.name = true) (sortFiles files)
    ∧ ∃ ns : List Nat, ns.length = (secLabels files).length ∧
        (pipeline files).map labelO
          = (List.zipWith List.replicate ns (secLabels files)).flatten := by
  have hids : (pipeline files).map (fun c => c.id)
      = (List.range (pipeline files).length).map chunkId := by
    unfold pipeline addIds
    rw [addIdsFrom_ids, addIdsFrom_length, List.range_eq_range']
  refine ⟨hids, ?_, sortFiles_sorted files, ?_⟩
  · rw [hids]
    exact (List.nodup_range _).map chunkId_injective
  · obtain ⟨ns, hlen, heq⟩ := files_blocks (sortFiles files)
    have hsub := merge_label_sublist
      ((sortFiles files).flatMap fun f => process_appendix f.data)
    rw [heq] at hsub
    obtain ⟨ms, hms, hmeq⟩ := sublist_blocks _ ns _ hlen hsub
    refine ⟨ms, hms, ?_⟩
    unfold pipeline addIds
    rw [addIdsFrom_labels]
    exact hmeq

example : split_into_paragraphs "a\n\nb".toList = ["a".toList, "b".toList] := by
  rw [split_into_paragraphs_eval]; decide

example : split_into_paragraphs "a\nBcd Ef".toList = ["a".toList, "Bcd Ef".toList] := by
  rw [split_into_paragraphs_eval]; decide

example : split_into_paragraphs "a\nbcd ef".toList = ["a\nbcd ef".toList] := by
  rw [split_into_paragraphs_eval]; decide

example : split_into_paragraphs "a\n \n\nb\n1. c".toList
    = ["a".toList, "b".toList, "1. c".toList] := by
  rw [split_into_paragraphs_eval]; decide

example : is_placeholder_content "[placeholder]".toList = true := by decide

example : is_placeholder_content "  [To Be Added]  ".toList = true := by decide

example : is_placeholder_content "this text merely mentions [placeholder] but it is long enough that it is surely a legitimate section of the syllabus".toList = false := by decide
